import Mathlib

/-!
Verification of the evaluation orchestration core of the ai-cv-analyzer
service: the job lifecycle state machine (`evaluation.service.ts`,
`evaluation.processor.ts`), the multi-provider LLM fallback engine
(`llm.service.ts`), the retrieval client (`ragie.service.ts`), the response
parser and the weighted-score computation.

The embedding is shallow: TypeScript numbers that only ever hold exact
decimal values are modelled as `ℚ`; JavaScript's special float values that
matter here (NaN, ±Infinity, produced only by the unguarded division in
`calculateWeightedScore`) are modelled explicitly by `JSNum`; network calls
are oracles passed as arguments; `Date.now()` values are `Nat` arguments;
fallible code returns `Except`/`Option`.  All functions are structurally
recursive (fuel-based where the source loops), so every definition
evaluates by kernel reduction.
-/

namespace CvAnalyzer

/-! ## Character and string utilities

JavaScript string operations used by the core (`toLowerCase`, `includes`,
`trim`, regex scans) are modelled on `List Char`.  Lower-casing is modelled
for ASCII letters, which covers every needle the source matches against.
-/

def lowerChar (c : Char) : Char :=
  if 'A' ≤ c ∧ c ≤ 'Z' then Char.ofNat (c.toNat + 32) else c

def lowerStr (s : String) : String := ⟨s.data.map lowerChar⟩

/-- `startsWithL n h` holds iff the needle `n` is an initial segment of `h`. -/
def startsWithL : List Char → List Char → Bool
  | [], _ => true
  | _ :: _, [] => false
  | a :: as, b :: bs => a == b && startsWithL as bs

/-- Scanning model of JavaScript `String.prototype.includes`. -/
def hasSubL (n : List Char) : List Char → Bool
  | [] => startsWithL n []
  | c :: cs => startsWithL n (c :: cs) || hasSubL n cs

def hasSubstr (n h : String) : Bool := hasSubL n.data h.data

/-- The whitespace characters relevant to the source's `\s` and `trim`. -/
def isWsChar (c : Char) : Bool := c = ' ' || c = '\n' || c = '\t' || c = '\r'

def trimChars (cs : List Char) : List Char :=
  ((cs.dropWhile isWsChar).reverse.dropWhile isWsChar).reverse

/-! ## LLM error classification — `llm.service.ts`, `isRateLimitError` -/

/-- A JavaScript error value as inspected by `isRateLimitError`:
`error.message` (possibly `undefined`), `error.status` and
`error.statusCode` (possibly `undefined`). -/
structure LLMError where
  message : Option String
  status : Option Nat
  statusCode : Option Nat
deriving DecidableEq

/-- Model of the JavaScript expression `error.status || error.statusCode`:
`status` is used unless it is falsy (`undefined` or `0`). -/
def jsOrStatus : Option Nat → Option Nat → Option Nat
  | some v, sc => if v = 0 then sc else some v
  | none, sc => sc

/-- `llm.service.ts` lines 330-339. -/
def isRateLimitError (e : LLMError) : Bool :=
  let message := lowerStr (e.message.getD "")
  let status := jsOrStatus e.status e.statusCode
  status == some 429
    || hasSubstr "rate limit" message
    || hasSubstr "too many requests" message
    || hasSubstr "quota exceeded" message

/-! ## Weighted score — `evaluation.processor.ts`, `calculateWeightedScore` -/

/-- One entry of the parsed `scores` object: `{score, weight}`
(the per-criterion `feedback` string plays no role in the computation). -/
structure ScoreItem where
  score : ℚ
  weight : ℚ
deriving DecidableEq

/-- `evaluation.processor.ts` lines 691-702, over the exact rational values
of the JavaScript numbers.  The `for … in` loop accumulating `totalScore`
and `totalWeight` is a left fold over the object's entries in insertion
order. -/
def calculateWeightedScore (scores : List (String × ScoreItem)) : ℚ :=
  let totals := scores.foldl
    (fun acc kv => (acc.1 + kv.2.score * kv.2.weight, acc.2 + kv.2.weight))
    ((0 : ℚ), (0 : ℚ))
  totals.1 / totals.2

/-- The value of a JavaScript number expression whose operands are exact:
either a finite (exact) value, an infinity, or NaN. -/
inductive JSNum where
  | num (q : ℚ)
  | posInf
  | negInf
  | nan
deriving DecidableEq

/-- IEEE-754 division as performed by JavaScript `/` on finite operands:
`x/0` is `±Infinity` for `x ≠ 0` and `0/0` is `NaN`. -/
def jsDiv (a b : ℚ) : JSNum :=
  if b ≠ 0 then .num (a / b)
  else if a = 0 then .nan
  else if 0 < a then .posInf
  else .negInf

def isFiniteJS : JSNum → Bool
  | .num _ => true
  | _ => false

/-- `calculateWeightedScore` with the final division given JavaScript
float-division semantics (the accumulation itself is exact for the finite
inputs the function receives). -/
def calculateWeightedScoreJS (scores : List (String × ScoreItem)) : JSNum :=
  let totals := scores.foldl
    (fun acc kv => (acc.1 + kv.2.score * kv.2.weight, acc.2 + kv.2.weight))
    ((0 : ℚ), (0 : ℚ))
  jsDiv totals.1 totals.2

/-! ## Retrieval client — `ragie.service.ts` -/

/-- One scored chunk as returned by the retrieval provider and kept in a
`RagRetrievalResult`. -/
structure RagChunk where
  text : String
  score : ℚ
  metadata : List (String × String)
deriving DecidableEq

structure RagRetrievalResult where
  context : String
  chunks : List RagChunk
  relevanceScore : ℚ
  retrievalTimeMs : Nat
deriving DecidableEq

/-- `ragie.service.ts` line 21. -/
def minScore : ℚ := 1 / 10

/-- `ragie.service.ts` line 20 (request parameter, not used by the
post-processing logic modelled here). -/
def topK : Nat := 5

/-- `ragie.service.ts` lines 270-277. -/
def emptyResult : RagRetrievalResult :=
  { context := "", chunks := [], relevanceScore := 0, retrievalTimeMs := 0 }

/-- The shared body of the four retrieval methods of `ragie.service.ts`
(lines 45-97 and the three analogous methods):
`available` is `isAvailable()`, `resp` the outcome of the provider call
(`.error` when the transport/provider throws, `.ok` with the possibly
missing `scoredChunks` array otherwise) and `elapsed` the measured
`Date.now() - startTime`. -/
def retrieveCore (available : Bool)
    (resp : Except String (Option (List RagChunk))) (elapsed : Nat) :
    RagRetrievalResult :=
  if !available then emptyResult
  else
    match resp with
    | .error _ => emptyResult
    | .ok chunksOpt =>
      let chunks := chunksOpt.getD []
      let relevantChunks := chunks.filter (fun c => decide (minScore ≤ c.score))
      if relevantChunks.isEmpty then emptyResult
      else
        let context := String.intercalate "\n\n" (relevantChunks.map (·.text))
        let avgScore :=
          (relevantChunks.foldl (fun sum c => sum + c.score) 0) /
            (relevantChunks.length : ℚ)
        { context := context,
          chunks := relevantChunks.map (fun c => ⟨c.text, c.score, c.metadata⟩),
          relevanceScore := avgScore,
          retrievalTimeMs := elapsed }

/-- `ragie.service.ts` lines 45-97 (the `jobTitle` only influences the
query text sent to the provider, which the oracle `resp` abstracts). -/
def retrieveJobRequirements (_jobTitle : String) (available : Bool)
    (resp : Except String (Option (List RagChunk))) (elapsed : Nat) :
    RagRetrievalResult :=
  retrieveCore available resp elapsed

/-- `ragie.service.ts` lines 102-153. -/
def retrieveCVScoringCriteria (available : Bool)
    (resp : Except String (Option (List RagChunk))) (elapsed : Nat) :
    RagRetrievalResult :=
  retrieveCore available resp elapsed

/-- `ragie.service.ts` lines 158-209. -/
def retrieveProjectRequirements (available : Bool)
    (resp : Except String (Option (List RagChunk))) (elapsed : Nat) :
    RagRetrievalResult :=
  retrieveCore available resp elapsed

/-- `ragie.service.ts` lines 214-265. -/
def retrieveProjectScoringCriteria (available : Bool)
    (resp : Except String (Option (List RagChunk))) (elapsed : Nat) :
    RagRetrievalResult :=
  retrieveCore available resp elapsed

/-! ## JSON values

A JSON value as produced by `JSON.parse` on the score payloads the
processor exchanges with the model.  Numbers are decimal literals,
recorded exactly as sign, digit string (as a `Nat`), and the number of
fraction digits: `jnum neg m e` denotes `(-1)^neg * m / 10^e`.  Object
fields are a mutually inductive list so that all recursions stay
structural (and therefore kernel-computable). -/

mutual
inductive Json where
  | jnull : Json
  | jbool : Bool → Json
  | jnum : Bool → Nat → Nat → Json
  | jstr : List Char → Json
  | jobj : JFields → Json
deriving DecidableEq
inductive JFields where
  | fnil : JFields
  | fcons : List Char → Json → JFields → JFields
deriving DecidableEq
end

/-! ## Evaluation job record and status updates — `evaluation.service.ts`,
`evaluation.processor.ts` -/

inductive JobStatus where
  | QUEUED
  | PROCESSING
  | COMPLETED
  | FAILED
deriving DecidableEq

/-- The result columns written by the `COMPLETED` update in
`evaluation.processor.ts` lines 382-394. -/
structure ResultPayload where
  cvMatchRate : ℚ
  cvFeedback : String
  cvScoresJson : Json
  projectScore : ℚ
  projectFeedback : String
  projectScoresJson : Json
  overallSummary : String
  llmProvider : String
  llmModel : String
  tokensUsed : Nat
  processingTimeMs : Nat

/-- The persisted `EvaluationJob` row (timestamps as `Nat` clock values;
every result/error column nullable, as in the database schema). -/
structure EvaluationJob where
  status : JobStatus
  createdAt : Nat
  startedAt : Option Nat
  completedAt : Option Nat
  attempts : Nat
  cvMatchRate : Option ℚ
  cvFeedback : Option String
  cvScoresJson : Option Json
  projectScore : Option ℚ
  projectFeedback : Option String
  projectScoresJson : Option Json
  overallSummary : Option String
  llmProvider : Option String
  llmModel : Option String
  tokensUsed : Option Nat
  processingTimeMs : Option Nat
  error : Option String

/-- The `data` argument passed to `updateJobStatus` at its three call
sites in `evaluation.processor.ts` (none, the full result payload, or the
captured error message). -/
inductive UpdatePatch where
  | noPatch
  | resultPatch (r : ResultPayload)
  | errorPatch (msg : String)

/-- `evaluation.service.ts` lines 136-159: sets `status`, stamps
`startedAt` on `PROCESSING` and `completedAt` on `COMPLETED`/`FAILED`,
then `Object.assign`s the patch onto the update — fields absent from the
patch keep their previous values (in particular an old `error` survives a
later `COMPLETED` update, and old result columns survive a later `FAILED`
update). -/
def updateJobStatus (j : EvaluationJob) (status : JobStatus) (now : Nat)
    (patch : UpdatePatch) : EvaluationJob :=
  let j1 := { j with
    status := status,
    startedAt := if status = JobStatus.PROCESSING then some now else j.startedAt,
    completedAt :=
      if status = JobStatus.COMPLETED ∨ status = JobStatus.FAILED then some now
      else j.completedAt }
  match patch with
  | .noPatch => j1
  | .resultPatch r => { j1 with
      cvMatchRate := some r.cvMatchRate,
      cvFeedback := some r.cvFeedback,
      cvScoresJson := some r.cvScoresJson,
      projectScore := some r.projectScore,
      projectFeedback := some r.projectFeedback,
      projectScoresJson := some r.projectScoresJson,
      overallSummary := some r.overallSummary,
      llmProvider := some r.llmProvider,
      llmModel := some r.llmModel,
      tokensUsed := some r.tokensUsed,
      processingTimeMs := some r.processingTimeMs }
  | .errorPatch m => { j1 with error := some m }

/-- `evaluation.processor.ts` lines 707-716. -/
def incrementAttempts (j : EvaluationJob) : EvaluationJob :=
  { j with attempts := j.attempts + 1 }

/-- Outcome of `evaluateCV` (`evaluation.processor.ts` lines 415-490). -/
structure CvEvalResult where
  matchRate : ℚ
  feedback : String
  scores : Json
  provider : String
  model : String
  tokensUsed : Nat

/-- Outcome of `evaluateProject` (lines 495-571). -/
structure ProjectEvalResult where
  score : ℚ
  feedback : String
  scores : Json
  provider : String
  model : String
  tokensUsed : Nat

/-- Outcome of `generateOverallSummary` (lines 576-621). -/
structure SummaryResult where
  summary : String
  provider : String
  model : String
  tokensUsed : Nat

/-- Steps 1-4 of `handleEvaluation` (lines 330-394): file resolution, the
two scoring calls and the synthesis call, each of which may throw; the
first failure (in program order; `Promise.all` rejections are collapsed to
this deterministic order) aborts the pipeline with that error's message.
On success the `COMPLETED` payload aggregates the three token counts. -/
def runPipeline (files : Except String (String × String))
    (cv : Except String CvEvalResult) (proj : Except String ProjectEvalResult)
    (syn : Except String SummaryResult) (processingTimeMs : Nat) :
    Except String ResultPayload := do
  let _ ← files
  let c ← cv
  let p ← proj
  let s ← syn
  pure { cvMatchRate := c.matchRate,
         cvFeedback := c.feedback,
         cvScoresJson := c.scores,
         projectScore := p.score,
         projectFeedback := p.feedback,
         projectScoresJson := p.scores,
         overallSummary := s.summary,
         llmProvider := s.provider,
         llmModel := s.model,
         tokensUsed := c.tokensUsed + p.tokensUsed + s.tokensUsed,
         processingTimeMs := processingTimeMs }

/-- `evaluation.processor.ts` lines 318-410, one processing attempt:
move the job to `PROCESSING` (stamped at `tStart`), increment `attempts`,
run the pipeline, then persist `COMPLETED` with the payload or `FAILED`
with the caught error message (stamped at `tEnd`).  The second component
is the exception re-raised to Bull (`none` on success). -/
def handleEvaluation (j : EvaluationJob) (tStart tEnd : Nat)
    (pipeline : Except String ResultPayload) : EvaluationJob × Option String :=
  let j1 := updateJobStatus j .PROCESSING tStart .noPatch
  let j2 := incrementAttempts j1
  match pipeline with
  | .ok r => (updateJobStatus j2 .COMPLETED tEnd (.resultPatch r), none)
  | .error msg => (updateJobStatus j2 .FAILED tEnd (.errorPatch msg), some msg)

/-- One attempt as seen by the job record: start time, end time, pipeline
outcome. -/
def applyAttempt (j : EvaluationJob)
    (a : Nat × Nat × Except String ResultPayload) : EvaluationJob :=
  (handleEvaluation j a.1 a.2.1 a.2.2).1

/-- The job record after a sequence of processing attempts (Bull re-invokes
the processor on each uncaught exception). -/
def runAttempts (j : EvaluationJob)
    (seq : List (Nat × Nat × Except String ResultPayload)) : EvaluationJob :=
  seq.foldl applyAttempt j

/-- A job as created by the submission path (`evaluation.service.ts`
lines 52-59): `QUEUED`, no timestamps beyond creation, no payloads. -/
def freshJob (t : Nat) : EvaluationJob :=
  { status := .QUEUED, createdAt := t, startedAt := none, completedAt := none,
    attempts := 0, cvMatchRate := none, cvFeedback := none,
    cvScoresJson := none, projectScore := none, projectFeedback := none,
    projectScoresJson := none, overallSummary := none, llmProvider := none,
    llmModel := none, tokensUsed := none, processingTimeMs := none,
    error := none }

/-- All eleven result columns are non-null. -/
def resultPopulated (j : EvaluationJob) : Bool :=
  j.cvMatchRate.isSome && j.cvFeedback.isSome && j.cvScoresJson.isSome &&
  j.projectScore.isSome && j.projectFeedback.isSome &&
  j.projectScoresJson.isSome && j.overallSummary.isSome &&
  j.llmProvider.isSome && j.llmModel.isSome && j.tokensUsed.isSome &&
  j.processingTimeMs.isSome

def errorPopulated (j : EvaluationJob) : Bool := j.error.isSome

/-- A concrete result payload used to exercise the job state machine. -/
def demoPayload : ResultPayload :=
  { cvMatchRate := 4/5, cvFeedback := "good", cvScoresJson := Json.jnull,
    projectScore := 4, projectFeedback := "solid",
    projectScoresJson := Json.jnull, overallSummary := "hire",
    llmProvider := "gemini", llmModel := "gemini-1.5-flash",
    tokensUsed := 1234, processingTimeMs := 56789 }

/-! ## LLM completion client with fallback — `llm.service.ts` -/

/-- One provider entry of `llm.config.ts` (`name`, `priority`, `enabled`,
`rateLimit.rpm`; the API-key/model details only matter to the network call
the oracle abstracts). -/
structure ProviderCfg where
  name : String
  priority : Nat
  enabled : Bool
  rpm : Nat
deriving DecidableEq

/-- One `rateLimiters` entry: `{count, resetAt}`. -/
structure RateLimiter where
  count : Nat
  resetAt : Nat
deriving DecidableEq

/-- The `rateLimiters : Map<string, …>` of `LLMService`. -/
abbrev LimiterMap := List (String × RateLimiter)

/-- JavaScript `Map.get` on the limiter map. -/
def lookupLimiter : LimiterMap → String → Option RateLimiter
  | [], _ => none
  | e :: es, k => if e.1 == k then some e.2 else lookupLimiter es k

/-- JavaScript `Map.set`: overwrite an existing key, else append. -/
def setLimiter (m : LimiterMap) (k : String) (v : RateLimiter) : LimiterMap :=
  if m.any (fun e => e.1 == k) then
    m.map (fun e => if e.1 == k then (k, v) else e)
  else m ++ [(k, v)]

/-- `provider?.config?.rateLimit?.rpm || 10` (`llm.service.ts` line 307):
the configured ceiling, defaulting to 10 when absent or falsy. -/
def getRpm (cfg : List ProviderCfg) (name : String) : Nat :=
  match cfg.find? (fun c => c.name == name) with
  | some c => if c.rpm = 0 then 10 else c.rpm
  | none => 10

/-- `llm.service.ts` lines 296-309 (the source also deletes an expired
entry; deletion is unobservable to the pure predicate and to the later
`trackRequest`, which treats an expired entry as absent). -/
def isRateLimited (cfg : List ProviderCfg) (rl : LimiterMap) (now : Nat)
    (name : String) : Bool :=
  match lookupLimiter rl name with
  | none => false
  | some l => if l.resetAt ≤ now then false else getRpm cfg name ≤ l.count

/-- `llm.service.ts` lines 311-314. -/
def markRateLimited (rl : LimiterMap) (now : Nat) (name : String) : LimiterMap :=
  setLimiter rl name ⟨999, now + 60000⟩

/-- `llm.service.ts` lines 316-328. -/
def trackRequest (rl : LimiterMap) (now : Nat) (name : String) : LimiterMap :=
  match lookupLimiter rl name with
  | none => setLimiter rl name ⟨1, now + 60000⟩
  | some l =>
    if l.resetAt ≤ now then setLimiter rl name ⟨1, now + 60000⟩
    else setLimiter rl name ⟨l.count + 1, l.resetAt⟩

/-- A completion produced by a backend. -/
structure LLMResponse where
  content : String
  provider : String
  model : String
  tokensTotal : Nat
deriving DecidableEq

/-- Result of one `callProvider` network attempt. -/
inductive AttemptOutcome where
  | success (r : LLMResponse)
  | failure (e : LLMError)

/-- The network oracle: what `callProvider` returns for the k-th attempt
(1-based) against a given provider. -/
abbrev CallOracle := String → Nat → AttemptOutcome

/-- `llm.service.ts` lines 275-291: enabled, initialized providers sorted
ascending by priority (V8's `Array.sort` is stable; insertion sort is the
stable sort on lists), with a truthy preferred provider that is present in
the registry moved to the front. -/
def insertSorted (c : ProviderCfg) : List ProviderCfg → List ProviderCfg
  | [] => [c]
  | d :: ds =>
    if c.priority < d.priority then c :: d :: ds else d :: insertSorted c ds

def sortByPriority (l : List ProviderCfg) : List ProviderCfg :=
  l.foldr insertSorted []

def getSortedProviders (cfg : List ProviderCfg) (inited : List String)
    (preferred : Option String) : List String :=
  let allProviders :=
    (sortByPriority (cfg.filter (fun p => p.enabled && inited.contains p.name))).map
      (·.name)
  match preferred with
  | some pref =>
    if pref != "" && inited.contains pref then
      pref :: allProviders.filter (fun q => q != pref)
    else allProviders
  | none => allProviders

/-- The inner retry loop of `generateCompletion` (lines 109-148) for one
provider: attempts are numbered from `attempt`, at most `remaining` more
are made.  `.inl` is a successful response; `.inr (e, true)` means a
rate-limit-classified failure broke out of the loop (after updating
`lastError` to that failure); `.inr (e, false)` means the retry budget was
exhausted, `e` being the `lastError` threaded through. -/
def tryAttempts (oracle : CallOracle) (name : String) (attempt remaining : Nat)
    (lastErr : Option LLMError) : LLMResponse ⊕ (Option LLMError × Bool) :=
  match remaining with
  | 0 => .inr (lastErr, false)
  | r + 1 =>
    match oracle name attempt with
    | .success resp => .inl resp
    | .failure e =>
      if isRateLimitError e then .inr (some e, true)
      else tryAttempts oracle name (attempt + 1) r (some e)

/-- The terminal failure message of `generateCompletion` (lines 152-155). -/
def allFailedMsg (lastErr : Option LLMError) : String :=
  "All LLM providers failed. Last error: " ++
    (match lastErr with
     | some e =>
       match e.message with
       | some m => if m = "" then "Unknown error" else m
       | none => "Unknown error"
     | none => "Unknown error") ++
    ". Please check your API keys and rate limits."

/-- The provider loop of `generateCompletion` (lines 95-155): skip
providers missing from the registry or currently rate-limited; otherwise
run the retry loop; on success record usage and return; on a rate-limit
break mark the provider limited and continue; when the list is exhausted
throw the aggregate failure carrying the last error. -/
def genGo (oracle : CallOracle) (cfg : List ProviderCfg) (inited : List String)
    (now maxRetries : Nat) :
    List String → LimiterMap → Option LLMError →
      Except String (LLMResponse × LimiterMap)
  | [], _, lastErr => .error (allFailedMsg lastErr)
  | p :: ps, rl, lastErr =>
    if !(inited.contains p) then genGo oracle cfg inited now maxRetries ps rl lastErr
    else if isRateLimited cfg rl now p then
      genGo oracle cfg inited now maxRetries ps rl lastErr
    else
      match tryAttempts oracle p 1 maxRetries lastErr with
      | .inl resp => .ok (resp, trackRequest rl now p)
      | .inr (e, true) =>
        genGo oracle cfg inited now maxRetries ps (markRateLimited rl now p) e
      | .inr (e, false) => genGo oracle cfg inited now maxRetries ps rl e

/-- `llm.service.ts` lines 83-156.  `inited` is the key set of the
`providers` registry, `rl` the current rate-limiter state, `maxRetries`
the configured `retry.maxAttempts`, and `preferred`
`options.preferredProvider`.  Returns the response together with the
updated limiter state, or throws the aggregate failure message. -/
def generateCompletion (oracle : CallOracle) (cfg : List ProviderCfg)
    (inited : List String) (rl : LimiterMap) (now maxRetries : Nat)
    (preferred : Option String) : Except String (LLMResponse × LimiterMap) :=
  genGo oracle cfg inited now maxRetries
    (getSortedProviders cfg inited preferred) rl none

/-! ### Claim-side reference model for C2, phrased after the spec:
backends in effective order with currently rate-limited ones skipped, a
per-backend attempt stream cut at the first success or first rate-limit
signal, the call returning the first successful attempt and otherwise a
single failure carrying the most recent underlying error. -/

/-- The attempts a backend would serve, numbered `start`, `start+1`, …. -/
def attemptStream (oracle : CallOracle) (name : String) :
    Nat → Nat → List AttemptOutcome
  | _, 0 => []
  | start, r + 1 => oracle name start :: attemptStream oracle name (start + 1) r

/-- Truncate an attempt list after the first success or the first
rate-limit-classified failure (which switches backends immediately). -/
def cutAttempts : List AttemptOutcome → List AttemptOutcome
  | [] => []
  | .success r :: _ => [.success r]
  | .failure e :: rest =>
    if isRateLimitError e then [.failure e] else .failure e :: cutAttempts rest

def firstSuccess : List AttemptOutcome → Option LLMResponse
  | [] => none
  | .success r :: _ => some r
  | .failure _ :: rest => firstSuccess rest

def lastFailure (l : List AttemptOutcome) : Option LLMError :=
  l.foldl (fun acc a => match a with | .failure e => some e | _ => acc) none

/-- The claim's view of one `generate` call over an explicit backend list:
skip unregistered or rate-limited backends, flatten the cut attempt
streams, return the first success, else fail with the most recent error
(falling back to the threaded `lastErr`). -/
def claimGenerateAux (oracle : CallOracle) (cfg : List ProviderCfg)
    (inited : List String) (now maxRetries : Nat) (names : List String)
    (rl : LimiterMap) (lastErr : Option LLMError) :
    Except (Option LLMError) LLMResponse :=
  let effective := names.filter
    (fun p => inited.contains p && !(isRateLimited cfg rl now p))
  let seq := effective.flatMap
    (fun p => cutAttempts (attemptStream oracle p 1 maxRetries))
  match firstSuccess seq with
  | some r => .ok r
  | none =>
    .error (match lastFailure seq with
            | some e => some e
            | none => lastErr)

/-- The claim's view of `generateCompletion` itself. -/
def claimGenerate (oracle : CallOracle) (cfg : List ProviderCfg)
    (inited : List String) (rl : LimiterMap) (now maxRetries : Nat)
    (preferred : Option String) : Except (Option LLMError) LLMResponse :=
  claimGenerateAux oracle cfg inited now maxRetries
    (getSortedProviders cfg inited preferred) rl none

/-! ## JSON text: digits, rendering, parsing

`JSON.parse` / `JSON.stringify` are modelled on the `Json` AST over
`List Char`.  The model covers the sub-grammar exercised by the score
payloads (objects, escape-free strings, decimal numbers without
exponents, booleans, null); the parser is fuel-based structural
recursion so it evaluates by kernel reduction. -/

def digitChar : Nat → Char
  | 0 => '0'
  | 1 => '1'
  | 2 => '2'
  | 3 => '3'
  | 4 => '4'
  | 5 => '5'
  | 6 => '6'
  | 7 => '7'
  | 8 => '8'
  | _ => '9'

def digitsToNat : List Char → Nat → Nat
  | [], acc => acc
  | c :: cs, acc => digitsToNat cs (acc * 10 + (c.toNat - 48))

def natDigitsGo : Nat → Nat → List Char → List Char
  | 0, n, acc => digitChar n :: acc
  | fuel + 1, n, acc =>
    if n < 10 then digitChar n :: acc
    else natDigitsGo fuel (n / 10) (digitChar (n % 10) :: acc)

/-- The decimal digit string of `n`. -/
def natDigits (n : Nat) : List Char := natDigitsGo n n []

def numDigitsGo : Nat → Nat → Nat
  | 0, _ => 1
  | fuel + 1, n => if n < 10 then 1 else 1 + numDigitsGo fuel (n / 10)

/-- The decimal rendering of `m / 10^e` (as `JSON.stringify` prints the
numbers appearing in score payloads): the digit string of `m`, padded with
leading zeros to at least `e+1` digits, with a point before the last `e`
digits when `e > 0`. -/
def renderNum (m e : Nat) : List Char :=
  if e = 0 then natDigits m
  else
    let ds := natDigits m
    let padded := List.replicate (e + 1 - ds.length) '0' ++ ds
    padded.take (padded.length - e) ++ '.' :: padded.drop (padded.length - e)

mutual
def render : Json → List Char
  | .jnull => ['n', 'u', 'l', 'l']
  | .jbool true => ['t', 'r', 'u', 'e']
  | .jbool false => ['f', 'a', 'l', 's', 'e']
  | .jnum neg m e => (if neg then ['-'] else []) ++ renderNum m e
  | .jstr s => '"' :: s ++ ['"']
  | .jobj fs => '{' :: renderFields fs ++ ['}']
def renderFields : JFields → List Char
  | .fnil => []
  | .fcons k v .fnil => '"' :: k ++ '"' :: ':' :: render v
  | .fcons k v (.fcons k' v' fs) =>
    '"' :: k ++ '"' :: ':' :: render v ++ ',' :: renderFields (.fcons k' v' fs)
end

/-- Characters that need no JSON string escaping and survive the
markdown-fence stripping untouched. -/
def cleanChar (c : Char) : Bool := c != '"' && c != '\\' && c != '`'

def cleanStr (s : List Char) : Bool := s.all cleanChar

mutual
def cleanJson : Json → Bool
  | .jstr s => cleanStr s
  | .jobj fs => cleanFields fs
  | _ => true
def cleanFields : JFields → Bool
  | .fnil => true
  | .fcons k v fs => cleanStr k && cleanJson v && cleanFields fs
end

mutual
def jdepth : Json → Nat
  | .jobj fs => 1 + fieldsDepth fs
  | _ => 1
def fieldsDepth : JFields → Nat
  | .fnil => 0
  | .fcons _ v fs => 1 + max (jdepth v) (fieldsDepth fs)
end

/-- After a rendered number, parsing must not be able to extend the
number: the next character is neither a digit nor a point. -/
def stopsNum : List Char → Bool
  | [] => true
  | c :: _ => !c.isDigit && c != '.'

def numNextOk : Json → List Char → Bool
  | .jnum _ _ _, rest => stopsNum rest
  | _, _ => true

def skipWs (cs : List Char) : List Char := cs.dropWhile isWsChar

/-- Body of a JSON string after the opening quote (escape sequences are
outside the modelled sub-grammar and fail). -/
def parseStrGo : List Char → Option (List Char × List Char)
  | [] => none
  | c :: r =>
    if c = '"' then some ([], r)
    else if c = '\\' then none
    else (parseStrGo r).map (fun x => (c :: x.1, x.2))

/-- A non-negative decimal number: digits, optionally a point and more
digits; returns the concatenated digit value and the count of fraction
digits. -/
def parseNumCore (cs : List Char) : Option (Nat × Nat × List Char) :=
  let ds := cs.takeWhile Char.isDigit
  let r1 := cs.dropWhile Char.isDigit
  if ds.isEmpty then none
  else
    match r1 with
    | c1 :: r2 =>
      if c1 = '.' then
        let fs := r2.takeWhile Char.isDigit
        let r3 := r2.dropWhile Char.isDigit
        if fs.isEmpty then none else some (digitsToNat (ds ++ fs) 0, fs.length, r3)
      else some (digitsToNat ds 0, 0, r1)
    | [] => some (digitsToNat ds 0, 0, [])

mutual
def parseVal : Nat → List Char → Option (Json × List Char)
  | 0, _ => none
  | fuel + 1, cs =>
    match skipWs cs with
    | [] => none
    | c :: r =>
      if c = '"' then (parseStrGo r).map (fun x => (Json.jstr x.1, x.2))
      else if c = '{' then
        match skipWs r with
        | [] => none
        | c2 :: r2 =>
          if c2 = '}' then some (Json.jobj .fnil, r2)
          else (parseFields fuel r).map (fun x => (Json.jobj x.1, x.2))
      else if c = '-' then
        (parseNumCore r).map (fun x => (Json.jnum true x.1 x.2.1, x.2.2))
      else if c.isDigit then
        (parseNumCore (c :: r)).map (fun x => (Json.jnum false x.1 x.2.1, x.2.2))
      else if c = 't' then
        match r with
        | 'r' :: 'u' :: 'e' :: r2 => some (Json.jbool true, r2)
        | _ => none
      else if c = 'f' then
        match r with
        | 'a' :: 'l' :: 's' :: 'e' :: r2 => some (Json.jbool false, r2)
        | _ => none
      else if c = 'n' then
        match r with
        | 'u' :: 'l' :: 'l' :: r2 => some (Json.jnull, r2)
        | _ => none
      else none
def parseFields : Nat → List Char → Option (JFields × List Char)
  | 0, _ => none
  | fuel + 1, cs =>
    match skipWs cs with
    | [] => none
    | c :: r =>
      if c = '"' then
        match parseStrGo r with
        | none => none
        | some (key, r1) =>
          match skipWs r1 with
          | [] => none
          | c2 :: r2 =>
            if c2 = ':' then
              match parseVal fuel r2 with
              | none => none
              | some (v, r3) =>
                match skipWs r3 with
                | [] => none
                | c3 :: r4 =>
                  if c3 = ',' then
                    (parseFields fuel r4).map
                      (fun x => (JFields.fcons key v x.1, x.2))
                  else if c3 = '}' then some (JFields.fcons key v .fnil, r4)
                  else none
            else none
      else none
end

/-- Model of `JSON.parse`: one value, then only trailing whitespace. -/
def jsonParse (cs : List Char) : Option Json :=
  match parseVal (cs.length + 1) cs with
  | some (v, rest) => if (skipWs rest).isEmpty then some v else none
  | none => none

/-! ## Markdown-fence stripping and brace span —
`parseJSONResponse`, `evaluation.processor.ts` lines 660-686 -/

/-- A match of the (case-insensitive) regex `vvv json \s*` at the head of
the input, where `vvv` is three backticks: returns the text after the
match. -/
def fenceJsonAfter : List Char → Option (List Char)
  | c0 :: c1 :: c2 :: c3 :: c4 :: c5 :: c6 :: rest =>
    if c0 = '`' ∧ c1 = '`' ∧ c2 = '`' ∧ lowerChar c3 = 'j' ∧
        lowerChar c4 = 's' ∧ lowerChar c5 = 'o' ∧ lowerChar c6 = 'n' then
      some (rest.dropWhile isWsChar)
    else none
  | _ => none

/-- Global left-to-right replacement of the first fence regex by the
empty string, continuing after each match (fuel-based; one unit of fuel
per step, the initial length suffices). -/
def pass1Go : Nat → List Char → List Char
  | _, [] => []
  | 0, c :: cs => c :: cs
  | fuel + 1, c :: cs =>
    match fenceJsonAfter (c :: cs) with
    | some rest => pass1Go fuel rest
    | none => c :: pass1Go fuel cs

def pass1 (cs : List Char) : List Char := pass1Go cs.length cs

/-- A match of the bare-fence regex (three backticks then `\s*`). -/
def fence3After : List Char → Option (List Char)
  | c0 :: c1 :: c2 :: rest =>
    if c0 = '`' ∧ c1 = '`' ∧ c2 = '`' then some (rest.dropWhile isWsChar)
    else none
  | _ => none

def pass2Go : Nat → List Char → List Char
  | _, [] => []
  | 0, c :: cs => c :: cs
  | fuel + 1, c :: cs =>
    match fence3After (c :: cs) with
    | some rest => pass2Go fuel rest
    | none => c :: pass2Go fuel cs

def pass2 (cs : List Char) : List Char := pass2Go cs.length cs

/-- The greedy regex span from the first opening brace to the last
closing brace (`None` when no such span exists). -/
def jsonSpan (cs : List Char) : Option (List Char) :=
  let s := cs.dropWhile (fun c => c != '{')
  let t := (s.reverse.dropWhile (fun c => c != '}')).reverse
  if t.isEmpty then none else some t

/-- `evaluation.processor.ts` lines 660-686: strip the two fence regexes,
trim, take the greedy brace span, decode it; both the no-span case and a
decode failure are rethrown as a parse error (the engine-specific text of
the underlying `SyntaxError` is abstracted to a fixed message). -/
def parseJSONResponseCore (content : List Char) : Except String Json :=
  let cleaned := trimChars (pass2 (pass1 content))
  match jsonSpan cleaned with
  | some sp =>
    match jsonParse sp with
    | some v => Except.ok v
    | none => Except.error "Failed to parse LLM response: JSON syntax error"
  | none => Except.error "Failed to parse LLM response: No JSON found in response"

def parseJSONResponse (content : String) : Except String Json :=
  parseJSONResponseCore content.data

/-- The opening fence the model prompts are wrapped in. -/
def fenceOpen : List Char := "```json\n".data

/-- The closing fence. -/
def fenceClose : List Char := "\n```\n".data

/-- A small concrete score payload:
`scores.technical_skills = {score: 4, weight: 0.4}`,
`overall_feedback = "ok"`. -/
def demoFs : JFields :=
  .fcons "scores".data
    (Json.jobj (.fcons "technical_skills".data
      (Json.jobj (.fcons "score".data (Json.jnum false 4 0)
        (.fcons "weight".data (Json.jnum false 4 1) .fnil))) .fnil))
    (.fcons "overall_feedback".data (Json.jstr "ok".data) .fnil)

-- ===================================================================
-- ===============  THEOREMS (helper lemmas first)  ==================
-- ===================================================================

/-! ## Substring characterization -/

theorem startsWithL_iff (n h : List Char) :
    startsWithL n h = true ↔ ∃ t, h = n ++ t := by
  induction n generalizing h with
  | nil => simp [startsWithL]
  | cons a as ih =>
    cases h with
    | nil =>
      simp [startsWithL]
    | cons b bs =>
      simp only [startsWithL, Bool.and_eq_true, beq_iff_eq, ih]
      constructor
      · rintro ⟨rfl, t, rfl⟩
        exact ⟨t, rfl⟩
      · rintro ⟨t, ht⟩
        cases ht
        exact ⟨rfl, t, rfl⟩

theorem hasSubL_iff (n h : List Char) :
    hasSubL n h = true ↔ ∃ pre post, h = pre ++ n ++ post := by
  induction h with
  | nil =>
    simp only [hasSubL, startsWithL_iff]
    constructor
    · rintro ⟨t, ht⟩
      have hn : n = [] := by
        cases n with
        | nil => rfl
        | cons x xs => simp at ht
      exact ⟨[], [], by simp [hn]⟩
    · rintro ⟨pre, post, hp⟩
      have hn : n = [] := by
        cases pre <;> cases n <;> simp_all
      exact ⟨[], by simp [hn]⟩
  | cons c cs ih =>
    simp only [hasSubL, Bool.or_eq_true, startsWithL_iff, ih]
    constructor
    · rintro (⟨t, ht⟩ | ⟨pre, post, hp⟩)
      · exact ⟨[], t, by simpa using ht⟩
      · exact ⟨c :: pre, post, by simp [hp]⟩
    · rintro ⟨pre, post, hp⟩
      cases pre with
      | nil =>
        left
        exact ⟨post, by simpa using hp⟩
      | cons x xs =>
        right
        refine ⟨xs, post, ?_⟩
        have := hp
        simp only [List.cons_append] at this
        exact (List.cons.injEq _ _ _ _).mp this |>.2

theorem hasSubstr_iff (n h : String) :
    hasSubstr n h = true ↔ ∃ pre post, h.data = pre ++ n.data ++ post := by
  exact hasSubL_iff n.data h.data

/-! ## C6 — rate-limit classification -/

/-- C6: an error is classified as a rate-limit condition iff its effective
HTTP status (`status`, falling back to `statusCode` when `status` is
falsy) is 429, or its lower-cased message contains "rate limit",
"too many requests" or "quota exceeded" as a substring; in particular a
429 status alone suffices regardless of the message, and the message
"Too Many Requests" with no status at all is classified as rate-limit. -/
theorem isRateLimitError_spec (e : LLMError) :
    (isRateLimitError e = true ↔
      (jsOrStatus e.status e.statusCode = some 429 ∨
       (∃ pre post, (lowerStr (e.message.getD "")).data =
          pre ++ ("rate limit").data ++ post) ∨
       (∃ pre post, (lowerStr (e.message.getD "")).data =
          pre ++ ("too many requests").data ++ post) ∨
       (∃ pre post, (lowerStr (e.message.getD "")).data =
          pre ++ ("quota exceeded").data ++ post))) ∧
    (jsOrStatus e.status e.statusCode = some 429 → isRateLimitError e = true) ∧
    isRateLimitError ⟨some "Too Many Requests", none, none⟩ = true := by
  have hmain : isRateLimitError e = true ↔
      (jsOrStatus e.status e.statusCode = some 429 ∨
       (∃ pre post, (lowerStr (e.message.getD "")).data =
          pre ++ ("rate limit").data ++ post) ∨
       (∃ pre post, (lowerStr (e.message.getD "")).data =
          pre ++ ("too many requests").data ++ post) ∨
       (∃ pre post, (lowerStr (e.message.getD "")).data =
          pre ++ ("quota exceeded").data ++ post)) := by
    unfold isRateLimitError
    simp only [Bool.or_eq_true, beq_iff_eq, hasSubstr_iff, or_assoc]
  refine ⟨hmain, fun h => hmain.mpr (Or.inl h), by decide⟩

/-- Closed instance of C6 applied at a concrete error. -/
theorem isRateLimitError_spec_witness :
    isRateLimitError ⟨none, some 429, none⟩ = true :=
  (isRateLimitError_spec ⟨none, some 429, none⟩).2.1 (by decide)

/-! ## Retrieval client lemmas -/

theorem foldl_add_score (l : List RagChunk) (a : ℚ) :
    l.foldl (fun s c => s + c.score) a = a + (l.map (·.score)).sum := by
  induction l generalizing a with
  | nil => simp
  | cons c cs ih => simp [ih, add_assoc]

theorem map_repack_chunks (l : List RagChunk) :
    l.map (fun c => (⟨c.text, c.score, c.metadata⟩ : RagChunk)) = l := by
  induction l with
  | nil => rfl
  | cons c cs ih => simp [ih]

/-! ## C3 — retrieval is total, errors become the empty result -/

/-- C3: every public retrieval method returns the empty
`RetrievalResult` (context `""`, no chunks, score 0, latency 0) both when
the client was constructed without credentials (`isAvailable()` false) and
when the provider call throws; no retrieval call propagates an error (each
is a total function into `RagRetrievalResult`). -/
theorem retrieval_total_spec (title : String) (available : Bool)
    (resp : Except String (Option (List RagChunk))) (elapsed : Nat) :
    (available = false →
      retrieveJobRequirements title available resp elapsed = emptyResult ∧
      retrieveCVScoringCriteria available resp elapsed = emptyResult ∧
      retrieveProjectRequirements available resp elapsed = emptyResult ∧
      retrieveProjectScoringCriteria available resp elapsed = emptyResult) ∧
    (∀ msg, resp = .error msg →
      retrieveJobRequirements title available resp elapsed = emptyResult ∧
      retrieveCVScoringCriteria available resp elapsed = emptyResult ∧
      retrieveProjectRequirements available resp elapsed = emptyResult ∧
      retrieveProjectScoringCriteria available resp elapsed = emptyResult) ∧
    (emptyResult.context = "" ∧ emptyResult.chunks = [] ∧
      emptyResult.relevanceScore = 0 ∧ emptyResult.retrievalTimeMs = 0) := by
  refine ⟨?_, ?_, by simp [emptyResult]⟩
  · rintro rfl
    simp [retrieveJobRequirements, retrieveCVScoringCriteria,
      retrieveProjectRequirements, retrieveProjectScoringCriteria,
      retrieveCore]
  · rintro msg rfl
    cases available <;>
      simp [retrieveJobRequirements, retrieveCVScoringCriteria,
        retrieveProjectRequirements, retrieveProjectScoringCriteria,
        retrieveCore]

/-- Closed instance of C3: a transport error yields the empty result. -/
theorem retrieval_total_spec_witness :
    retrieveJobRequirements "Backend Developer" true
      (.error "ECONNRESET") 42 = emptyResult :=
  ((retrieval_total_spec "Backend Developer" true (.error "ECONNRESET") 42).2.1
    "ECONNRESET" rfl).1

/-! ## C7 — relevance floor, context assembly, mean score -/

/-- C7: for a successful provider response, the result keeps exactly the
chunks whose score is at least the 0.1 floor (a subsequence of the
provider order), its context is the surviving texts joined by a blank
line in that order, its aggregate score is the arithmetic mean of the
surviving scores, and with no qualifying chunk the result is empty with
score 0. -/
theorem retrieveJobRequirements_floor_spec (title : String)
    (chunks : List RagChunk) (elapsed : Nat) :
    (retrieveJobRequirements title true (.ok (some chunks)) elapsed).chunks =
        chunks.filter (fun c => decide (minScore ≤ c.score)) ∧
    List.Sublist
      (retrieveJobRequirements title true (.ok (some chunks)) elapsed).chunks
      chunks ∧
    (∀ c ∈ chunks,
      (c ∈ (retrieveJobRequirements title true (.ok (some chunks)) elapsed).chunks
        ↔ minScore ≤ c.score)) ∧
    (chunks.filter (fun c => decide (minScore ≤ c.score)) ≠ [] →
      (retrieveJobRequirements title true (.ok (some chunks)) elapsed).context =
        String.intercalate "\n\n"
          ((chunks.filter (fun c => decide (minScore ≤ c.score))).map (·.text)) ∧
      (retrieveJobRequirements title true (.ok (some chunks)) elapsed).relevanceScore =
        ((chunks.filter (fun c => decide (minScore ≤ c.score))).map (·.score)).sum /
          ((chunks.filter (fun c => decide (minScore ≤ c.score))).length : ℚ)) ∧
    (chunks.filter (fun c => decide (minScore ≤ c.score)) = [] →
      (retrieveJobRequirements title true (.ok (some chunks)) elapsed).context = "" ∧
      (retrieveJobRequirements title true (.ok (some chunks)) elapsed).relevanceScore = 0) := by
  have hchunks :
      (retrieveJobRequirements title true (.ok (some chunks)) elapsed).chunks =
        chunks.filter (fun c => decide (minScore ≤ c.score)) := by
    by_cases hrel : chunks.filter (fun c => decide (minScore ≤ c.score)) = []
    · simp [retrieveJobRequirements, retrieveCore, hrel, emptyResult]
    · simp [retrieveJobRequirements, retrieveCore, List.isEmpty_iff, hrel,
        map_repack_chunks]
  refine ⟨hchunks, ?_, ?_, ?_, ?_⟩
  · rw [hchunks]; exact List.filter_sublist chunks
  · intro c hc
    rw [hchunks]
    simp [List.mem_filter, hc]
  · intro hrel
    constructor <;>
      simp [retrieveJobRequirements, retrieveCore, List.isEmpty_iff, hrel,
        foldl_add_score]
  · intro hrel
    constructor <;>
      simp [retrieveJobRequirements, retrieveCore, hrel, emptyResult]

/-- Closed instance of C7: scores 0.3 and 0.2 survive the floor, 0.05 is
discarded; the mean of the survivors is 0.25. -/
theorem retrieveJobRequirements_floor_spec_witness :
    (retrieveJobRequirements "Backend Developer" true
        (.ok (some [⟨"A", 3/10, []⟩, ⟨"B", 1/20, []⟩, ⟨"C", 1/5, []⟩])) 7).chunks =
      [⟨"A", 3/10, []⟩, ⟨"C", 1/5, []⟩] ∧
    (retrieveJobRequirements "Backend Developer" true
        (.ok (some [⟨"A", 3/10, []⟩, ⟨"B", 1/20, []⟩, ⟨"C", 1/5, []⟩])) 7).relevanceScore =
      1/4 := by
  have h := retrieveJobRequirements_floor_spec "Backend Developer"
    [⟨"A", 3/10, []⟩, ⟨"B", 1/20, []⟩, ⟨"C", 1/5, []⟩] 7
  have hfil : List.filter (fun c => decide (minScore ≤ c.score))
      [(⟨"A", 3/10, []⟩ : RagChunk), ⟨"B", 1/20, []⟩, ⟨"C", 1/5, []⟩] =
      [⟨"A", 3/10, []⟩, ⟨"C", 1/5, []⟩] := by
    norm_num [List.filter, minScore]
  have hne : List.filter (fun c => decide (minScore ≤ c.score))
      [(⟨"A", 3/10, []⟩ : RagChunk), ⟨"B", 1/20, []⟩, ⟨"C", 1/5, []⟩] ≠ [] := by
    rw [hfil]; simp
  refine ⟨?_, ?_⟩
  · rw [h.1, hfil]
  · rw [(h.2.2.2.1 hne).2, hfil]
    norm_num

/-! ## Weighted-score lemmas -/

theorem foldl_score_pair (l : List (String × ScoreItem)) (a b : ℚ) :
    l.foldl (fun acc kv => (acc.1 + kv.2.score * kv.2.weight, acc.2 + kv.2.weight))
      (a, b) =
      (a + (l.map (fun kv => kv.2.score * kv.2.weight)).sum,
       b + (l.map (fun kv => kv.2.weight)).sum) := by
  induction l generalizing a b with
  | nil => simp
  | cons x xs ih => simp [ih, add_assoc]

theorem foldl_min_le_init (l : List ℚ) (a : ℚ) : l.foldl min a ≤ a := by
  induction l generalizing a with
  | nil => simp
  | cons c cs ih => exact le_trans (ih (min a c)) (min_le_left a c)

theorem foldl_min_le_mem (l : List ℚ) (a : ℚ) : ∀ x ∈ l, l.foldl min a ≤ x := by
  induction l generalizing a with
  | nil => simp
  | cons c cs ih =>
    intro x hx
    rcases List.mem_cons.mp hx with rfl | hx
    · exact le_trans (foldl_min_le_init cs (min a x)) (min_le_right a x)
    · exact ih (min a c) x hx

theorem init_le_foldl_max (l : List ℚ) (a : ℚ) : a ≤ l.foldl max a := by
  induction l generalizing a with
  | nil => simp
  | cons c cs ih => exact le_trans (le_max_left a c) (ih (max a c))

theorem mem_le_foldl_max (l : List ℚ) (a : ℚ) : ∀ x ∈ l, x ≤ l.foldl max a := by
  induction l generalizing a with
  | nil => simp
  | cons c cs ih =>
    intro x hx
    rcases List.mem_cons.mp hx with rfl | hx
    · exact le_trans (le_max_right a x) (init_le_foldl_max cs (max a x))
    · exact ih (max a c) x hx

theorem sum_products_ge_min (l : List (String × ScoreItem)) (m : ℚ)
    (hs : ∀ x ∈ l, m ≤ x.2.score) (hw : ∀ x ∈ l, 0 ≤ x.2.weight) :
    m * ((l.map (fun kv => kv.2.weight)).sum) ≤
      (l.map (fun kv => kv.2.score * kv.2.weight)).sum := by
  induction l with
  | nil => simp
  | cons x xs ih =>
    have h1 : m * x.2.weight ≤ x.2.score * x.2.weight :=
      mul_le_mul_of_nonneg_right (hs x (List.mem_cons_self x xs))
        (hw x (List.mem_cons_self x xs))
    have h2 := ih (fun y hy => hs y (List.mem_cons_of_mem x hy))
      (fun y hy => hw y (List.mem_cons_of_mem x hy))
    simp only [List.map_cons, List.sum_cons, mul_add]
    exact add_le_add h1 h2

theorem sum_products_le_max (l : List (String × ScoreItem)) (m : ℚ)
    (hs : ∀ x ∈ l, x.2.score ≤ m) (hw : ∀ x ∈ l, 0 ≤ x.2.weight) :
    (l.map (fun kv => kv.2.score * kv.2.weight)).sum ≤
      m * ((l.map (fun kv => kv.2.weight)).sum) := by
  induction l with
  | nil => simp
  | cons x xs ih =>
    have h1 : x.2.score * x.2.weight ≤ m * x.2.weight :=
      mul_le_mul_of_nonneg_right (hs x (List.mem_cons_self x xs))
        (hw x (List.mem_cons_self x xs))
    have h2 := ih (fun y hy => hs y (List.mem_cons_of_mem x hy))
      (fun y hy => hw y (List.mem_cons_of_mem x hy))
    simp only [List.map_cons, List.sum_cons, mul_add]
    exact add_le_add h1 h2

/-! ## C4 — weighted-score algebra -/

/-- C4: for every non-empty criterion map with positive weights, the
computed score equals `Σ(score×weight)/Σ(weight)`; scaling all weights by
a constant `k > 0` does not change it; and when the weights sum to 1 it
lies between the smallest and the largest score. -/
theorem calculateWeightedScore_spec (p : String × ScoreItem)
    (l : List (String × ScoreItem)) (hw : ∀ x ∈ p :: l, 0 < x.2.weight) :
    calculateWeightedScore (p :: l) =
      ((p :: l).map (fun kv => kv.2.score * kv.2.weight)).sum /
        ((p :: l).map (fun kv => kv.2.weight)).sum ∧
    (∀ k : ℚ, 0 < k →
      calculateWeightedScore
          ((p :: l).map (fun kv => (kv.1, ⟨kv.2.score, k * kv.2.weight⟩))) =
        calculateWeightedScore (p :: l)) ∧
    (((p :: l).map (fun kv => kv.2.weight)).sum = 1 →
      (l.map (fun kv => kv.2.score)).foldl min p.2.score ≤
          calculateWeightedScore (p :: l) ∧
      calculateWeightedScore (p :: l) ≤
          (l.map (fun kv => kv.2.score)).foldl max p.2.score) := by
  have hformula : ∀ m : List (String × ScoreItem), calculateWeightedScore m =
      (m.map (fun kv => kv.2.score * kv.2.weight)).sum /
        (m.map (fun kv => kv.2.weight)).sum := by
    intro m
    simp only [calculateWeightedScore, foldl_score_pair, zero_add]
  refine ⟨hformula (p :: l), ?_, ?_⟩
  · intro k hk
    rw [hformula, hformula]
    have h1 : ((p :: l).map (fun kv =>
          ((kv.1, (⟨kv.2.score, k * kv.2.weight⟩ : ScoreItem)) :
            String × ScoreItem))).map (fun kv => kv.2.score * kv.2.weight) =
        (p :: l).map (fun kv => k * (kv.2.score * kv.2.weight)) := by
      rw [List.map_map]
      exact List.map_congr_left (fun x _ => by simp; ring)
    have h2 : ((p :: l).map (fun kv =>
          ((kv.1, (⟨kv.2.score, k * kv.2.weight⟩ : ScoreItem)) :
            String × ScoreItem))).map (fun kv => kv.2.weight) =
        (p :: l).map (fun kv => k * kv.2.weight) := by
      rw [List.map_map]
      exact List.map_congr_left (fun x _ => by simp)
    rw [h1, h2, List.sum_map_mul_left, List.sum_map_mul_left,
      mul_div_mul_left _ _ (ne_of_gt hk)]
  · intro hsum
    have hmin : ∀ x ∈ p :: l,
        (l.map (fun kv => kv.2.score)).foldl min p.2.score ≤ x.2.score := by
      intro x hx
      rcases List.mem_cons.mp hx with rfl | hx
      · exact foldl_min_le_init _ _
      · exact foldl_min_le_mem _ _ _ (List.mem_map_of_mem _ hx)
    have hmax : ∀ x ∈ p :: l,
        x.2.score ≤ (l.map (fun kv => kv.2.score)).foldl max p.2.score := by
      intro x hx
      rcases List.mem_cons.mp hx with rfl | hx
      · exact init_le_foldl_max _ _
      · exact mem_le_foldl_max _ _ _ (List.mem_map_of_mem _ hx)
    have hw0 : ∀ x ∈ p :: l, 0 ≤ x.2.weight := fun x hx => le_of_lt (hw x hx)
    have hlo := sum_products_ge_min (p :: l) _ hmin hw0
    have hhi := sum_products_le_max (p :: l) _ hmax hw0
    rw [hsum, mul_one] at hlo hhi
    rw [hformula, hsum, div_one]
    exact ⟨hlo, hhi⟩

/-- Closed instance of C4: the fallback CV rubric weights (0.4, 0.25,
0.2, 0.15) with scores 4, 3, 5, 4 give 3.95, which lies in [3, 5]. -/
theorem calculateWeightedScore_spec_witness :
    calculateWeightedScore
      [("technical_skills", ⟨4, 2/5⟩), ("experience_level", ⟨3, 1/4⟩),
       ("achievements", ⟨5, 1/5⟩), ("cultural_fit", ⟨4, 3/20⟩)] = 79/20 := by
  have h := calculateWeightedScore_spec ("technical_skills", ⟨4, 2/5⟩)
    [("experience_level", ⟨3, 1/4⟩), ("achievements", ⟨5, 1/5⟩),
     ("cultural_fit", ⟨4, 3/20⟩)]
    (by intro x hx
        simp only [List.mem_cons, List.not_mem_nil, or_false] at hx
        rcases hx with rfl | rfl | rfl | rfl <;> norm_num)
  rw [h.1]
  norm_num

/-! ## C10 — unguarded division in the weighted score -/

/-- C10 counterexample: a map whose weights sum to 0 but whose weighted
score sum is 2 yields `+Infinity` under JavaScript division, not `NaN`. -/
theorem calculateWeightedScoreJS_counterexample :
    calculateWeightedScoreJS [("a", ⟨5, 1⟩), ("b", ⟨3, -1⟩)] = JSNum.posInf ∧
    JSNum.posInf ≠ JSNum.nan ∧
    (([("a", (⟨5, 1⟩ : ScoreItem)), ("b", ⟨3, -1⟩)].map
        (fun kv => kv.2.weight)).sum = 0) := by
  refine ⟨?_, by simp, by norm_num⟩
  norm_num [calculateWeightedScoreJS, jsDiv, List.foldl]

/-- C10 amended: `calculateWeightedScore` divides by the weight total
without a guard, so the empty map yields `NaN`; any map whose weights sum
to 0 yields a non-finite value (`NaN` when the weighted sum is also 0,
`±Infinity` otherwise) rather than an error; and the score is the finite
rational `Σ(score×weight)/Σ(weight)` exactly when the total weight is
non-zero. -/
theorem calculateWeightedScoreJS_amended :
    calculateWeightedScoreJS [] = JSNum.nan ∧
    (∀ scores : List (String × ScoreItem),
      (scores.map (fun kv => kv.2.weight)).sum = 0 →
      isFiniteJS (calculateWeightedScoreJS scores) = false) ∧
    (∀ scores : List (String × ScoreItem),
      (scores.map (fun kv => kv.2.weight)).sum ≠ 0 →
      calculateWeightedScoreJS scores =
        JSNum.num (calculateWeightedScore scores)) := by
  refine ⟨by simp [calculateWeightedScoreJS, jsDiv], ?_, ?_⟩
  · intro scores hsum
    simp only [calculateWeightedScoreJS, foldl_score_pair, zero_add, hsum, jsDiv]
    by_cases ha : (scores.map (fun kv => kv.2.score * kv.2.weight)).sum = 0
    · simp [ha, isFiniteJS]
    · by_cases hpos : 0 < (scores.map (fun kv => kv.2.score * kv.2.weight)).sum
      · simp [ha, hpos, isFiniteJS]
      · simp [ha, hpos, isFiniteJS]
  · intro scores hsum
    simp only [calculateWeightedScoreJS, foldl_score_pair, zero_add, jsDiv,
      calculateWeightedScore, hsum]
    simp [hsum]

/-- Closed instance of the amended C10. -/
theorem calculateWeightedScoreJS_amended_witness :
    isFiniteJS (calculateWeightedScoreJS [("a", ⟨4, 0⟩)]) = false ∧
    calculateWeightedScoreJS [("a", ⟨4, 1/2⟩)] = JSNum.num 4 := by
  constructor
  · exact calculateWeightedScoreJS_amended.2.1 [("a", ⟨4, 0⟩)] (by norm_num)
  · rw [calculateWeightedScoreJS_amended.2.2 [("a", ⟨4, 1/2⟩)] (by norm_num [List.map])]
    norm_num [calculateWeightedScore, List.foldl]

/-! ## Job state-machine lemmas -/

theorem applyAttempt_error_fields (j : EvaluationJob) (s e : Nat) (m : String) :
    (applyAttempt j (s, e, .error m)).status = .FAILED ∧
    (applyAttempt j (s, e, .error m)).error = some m ∧
    (applyAttempt j (s, e, .error m)).startedAt = some s ∧
    (applyAttempt j (s, e, .error m)).completedAt = some e ∧
    (applyAttempt j (s, e, .error m)).createdAt = j.createdAt ∧
    resultPopulated (applyAttempt j (s, e, .error m)) = resultPopulated j := by
  simp [applyAttempt, handleEvaluation, updateJobStatus, incrementAttempts,
    resultPopulated]

theorem applyAttempt_ok_fields (j : EvaluationJob) (s e : Nat) (r : ResultPayload) :
    (applyAttempt j (s, e, .ok r)).status = .COMPLETED ∧
    (applyAttempt j (s, e, .ok r)).error = j.error ∧
    (applyAttempt j (s, e, .ok r)).startedAt = some s ∧
    (applyAttempt j (s, e, .ok r)).completedAt = some e ∧
    (applyAttempt j (s, e, .ok r)).createdAt = j.createdAt ∧
    resultPopulated (applyAttempt j (s, e, .ok r)) = true := by
  simp [applyAttempt, handleEvaluation, updateJobStatus, incrementAttempts,
    resultPopulated]

theorem applyAttempt_stamps (j : EvaluationJob)
    (a : Nat × Nat × Except String ResultPayload) :
    (applyAttempt j a).startedAt = some a.1 ∧
    (applyAttempt j a).completedAt = some a.2.1 ∧
    (applyAttempt j a).createdAt = j.createdAt := by
  rcases a with ⟨s, e, o⟩
  cases o with
  | ok r => exact ⟨(applyAttempt_ok_fields j s e r).2.2.1,
      (applyAttempt_ok_fields j s e r).2.2.2.1,
      (applyAttempt_ok_fields j s e r).2.2.2.2.1⟩
  | error m => exact ⟨(applyAttempt_error_fields j s e m).2.2.1,
      (applyAttempt_error_fields j s e m).2.2.2.1,
      (applyAttempt_error_fields j s e m).2.2.2.2.1⟩

theorem runAttempts_createdAt (seq : List (Nat × Nat × Except String ResultPayload))
    (j : EvaluationJob) : (runAttempts j seq).createdAt = j.createdAt := by
  induction seq generalizing j with
  | nil => rfl
  | cons a rest ih =>
    show (runAttempts (applyAttempt j a) rest).createdAt = j.createdAt
    rw [ih, (applyAttempt_stamps j a).2.2]

theorem runAttempts_errorList (msgs : List (Nat × Nat × String))
    (j : EvaluationJob) :
    resultPopulated (runAttempts j
        (msgs.map (fun x => (x.1, x.2.1,
          (Except.error x.2.2 : Except String ResultPayload))))) =
      resultPopulated j ∧
    errorPopulated (runAttempts j
        (msgs.map (fun x => (x.1, x.2.1,
          (Except.error x.2.2 : Except String ResultPayload))))) =
      (errorPopulated j || !msgs.isEmpty) ∧
    (msgs = [] → runAttempts j
        (msgs.map (fun x => (x.1, x.2.1,
          (Except.error x.2.2 : Except String ResultPayload)))) = j) ∧
    (msgs ≠ [] → (runAttempts j
        (msgs.map (fun x => (x.1, x.2.1,
          (Except.error x.2.2 : Except String ResultPayload))))).status = .FAILED) := by
  induction msgs generalizing j with
  | nil => simp [runAttempts]
  | cons x xs ih =>
    rcases x with ⟨s, e, m⟩
    have hstep : runAttempts j
        (((s, e, m) :: xs).map (fun x => (x.1, x.2.1,
          (Except.error x.2.2 : Except String ResultPayload)))) =
        runAttempts (applyAttempt j (s, e, .error m))
          (xs.map (fun x => (x.1, x.2.1,
            (Except.error x.2.2 : Except String ResultPayload)))) := rfl
    have hj' := applyAttempt_error_fields j s e m
    have ihx := ih (applyAttempt j (s, e, .error m))
    refine ⟨?_, ?_, by simp, ?_⟩
    · rw [hstep, ihx.1, hj'.2.2.2.2.2]
    · rw [hstep, ihx.2.1]
      have : errorPopulated (applyAttempt j (s, e, .error m)) = true := by
        simp [errorPopulated, hj'.2.1]
      simp [this]
    · intro _
      rw [hstep]
      rcases Decidable.em (xs = []) with hxs | hxs
      · subst hxs
        simpa [runAttempts] using hj'.1
      · exact ihx.2.2.2 hxs

/-! ## C1 — every attempt ends in a persisted terminal state -/

/-- C1: for any pipeline outcome, one processing attempt leaves the job
`COMPLETED` or `FAILED` (never `PROCESSING`), with `completedAt` stamped;
on success the full result payload is persisted and nothing is re-raised,
on failure the error message is persisted and the same message is
re-raised to the queue. -/
theorem handleEvaluation_terminal (j : EvaluationJob) (t1 t2 : Nat)
    (pipe : Except String ResultPayload) :
    ((handleEvaluation j t1 t2 pipe).1.status = .COMPLETED ∨
      (handleEvaluation j t1 t2 pipe).1.status = .FAILED) ∧
    (handleEvaluation j t1 t2 pipe).1.status ≠ .PROCESSING ∧
    (handleEvaluation j t1 t2 pipe).1.completedAt = some t2 ∧
    (∀ r, pipe = .ok r →
      (handleEvaluation j t1 t2 pipe).1.status = .COMPLETED ∧
      resultPopulated (handleEvaluation j t1 t2 pipe).1 = true ∧
      (handleEvaluation j t1 t2 pipe).1.cvMatchRate = some r.cvMatchRate ∧
      (handleEvaluation j t1 t2 pipe).1.overallSummary = some r.overallSummary ∧
      (handleEvaluation j t1 t2 pipe).2 = none) ∧
    (∀ m, pipe = .error m →
      (handleEvaluation j t1 t2 pipe).1.status = .FAILED ∧
      (handleEvaluation j t1 t2 pipe).1.error = some m ∧
      (handleEvaluation j t1 t2 pipe).2 = some m) := by
  cases pipe with
  | ok r =>
    refine ⟨Or.inl ?_, ?_, ?_, ?_, ?_⟩ <;>
      simp [handleEvaluation, updateJobStatus, incrementAttempts, resultPopulated]
  | error m =>
    refine ⟨Or.inr ?_, ?_, ?_, ?_, ?_⟩ <;>
      simp [handleEvaluation, updateJobStatus, incrementAttempts, resultPopulated]

/-- Closed instance of C1: a failing pipeline leaves a fresh job `FAILED`
with the message persisted and re-raised. -/
theorem handleEvaluation_terminal_witness :
    (handleEvaluation (freshJob 0) 1 2 (Except.error "All LLM providers failed")).1.status
        = .FAILED ∧
    (handleEvaluation (freshJob 0) 1 2 (Except.error "All LLM providers failed")).1.error
        = some "All LLM providers failed" ∧
    (handleEvaluation (freshJob 0) 1 2 (Except.error "All LLM providers failed")).2
        = some "All LLM providers failed" :=
  (handleEvaluation_terminal (freshJob 0) 1 2
    (Except.error "All LLM providers failed")).2.2.2.2
    "All LLM providers failed" rfl

/-! ## C8 — payload exclusivity (corrected) -/

/-- C8 counterexample: a job that fails once ("LLM timeout") and completes
on the retry ends `COMPLETED` with BOTH the result payload and the stale
error message populated — the claimed exactly-one invariant is violated. -/
theorem payload_exclusivity_counterexample :
    resultPopulated (runAttempts (freshJob 0)
        [(1, 2, Except.error "LLM timeout"), (3, 4, Except.ok demoPayload)]) = true ∧
    errorPopulated (runAttempts (freshJob 0)
        [(1, 2, Except.error "LLM timeout"), (3, 4, Except.ok demoPayload)]) = true ∧
    (runAttempts (freshJob 0)
        [(1, 2, Except.error "LLM timeout"), (3, 4, Except.ok demoPayload)]).status
      = JobStatus.COMPLETED ∧
    (runAttempts (freshJob 0)
        [(1, 2, Except.error "LLM timeout"), (3, 4, Except.ok demoPayload)]).error
      = some "LLM timeout" :=
  ⟨rfl, rfl, rfl, rfl⟩

/-- C8 amended: once status leaves `PROCESSING`, the result payload is
populated iff the job ever completed and the error payload iff some
attempt failed; at least one is populated, but a job that failed and then
completed on a retry retains the stale error alongside the result
(`FAILED` never clears result columns and `COMPLETED` never clears
`error`), so "exactly one" holds only for jobs without such a mixed
history. -/
theorem payload_population_amended (t : Nat) (msgs : List (Nat × Nat × String))
    (finalOk : Option (Nat × Nat × ResultPayload))
    (hne : msgs ≠ [] ∨ finalOk.isSome = true) :
    resultPopulated (runAttempts (freshJob t)
        (msgs.map (fun x => (x.1, x.2.1,
          (Except.error x.2.2 : Except String ResultPayload))) ++
         (match finalOk with
          | some y => [(y.1, y.2.1, Except.ok y.2.2)]
          | none => []))) = finalOk.isSome ∧
    errorPopulated (runAttempts (freshJob t)
        (msgs.map (fun x => (x.1, x.2.1,
          (Except.error x.2.2 : Except String ResultPayload))) ++
         (match finalOk with
          | some y => [(y.1, y.2.1, Except.ok y.2.2)]
          | none => []))) = !msgs.isEmpty ∧
    ((runAttempts (freshJob t)
        (msgs.map (fun x => (x.1, x.2.1,
          (Except.error x.2.2 : Except String ResultPayload))) ++
         (match finalOk with
          | some y => [(y.1, y.2.1, Except.ok y.2.2)]
          | none => []))).status = .COMPLETED ∨
     (runAttempts (freshJob t)
        (msgs.map (fun x => (x.1, x.2.1,
          (Except.error x.2.2 : Except String ResultPayload))) ++
         (match finalOk with
          | some y => [(y.1, y.2.1, Except.ok y.2.2)]
          | none => []))).status = .FAILED) ∧
    (resultPopulated (runAttempts (freshJob t)
        (msgs.map (fun x => (x.1, x.2.1,
          (Except.error x.2.2 : Except String ResultPayload))) ++
         (match finalOk with
          | some y => [(y.1, y.2.1, Except.ok y.2.2)]
          | none => []))) ||
     errorPopulated (runAttempts (freshJob t)
        (msgs.map (fun x => (x.1, x.2.1,
          (Except.error x.2.2 : Except String ResultPayload))) ++
         (match finalOk with
          | some y => [(y.1, y.2.1, Except.ok y.2.2)]
          | none => [])))) = true := by
  have hfresh1 : resultPopulated (freshJob t) = false := rfl
  have hfresh2 : errorPopulated (freshJob t) = false := rfl
  cases finalOk with
  | none =>
    have hm : msgs ≠ [] := by
      rcases hne with h | h
      · exact h
      · simp at h
    have h := runAttempts_errorList msgs (freshJob t)
    simp only [List.append_nil] at *
    refine ⟨by rw [h.1, hfresh1]; simp, ?_, Or.inr (h.2.2.2 hm), ?_⟩
    · rw [h.2.1, hfresh2]
      simp
    · rw [h.2.1, hfresh2]
      simp [List.isEmpty_iff, hm]
  | some y =>
    rcases y with ⟨s, e, r⟩
    have h := runAttempts_errorList msgs (freshJob t)
    have hsplit : runAttempts (freshJob t)
        (msgs.map (fun x => (x.1, x.2.1,
          (Except.error x.2.2 : Except String ResultPayload))) ++
          [(s, e, Except.ok r)]) =
        applyAttempt (runAttempts (freshJob t)
          (msgs.map (fun x => (x.1, x.2.1,
            (Except.error x.2.2 : Except String ResultPayload))))) (s, e, .ok r) := by
      simp [runAttempts, List.foldl_append]
    have hmid := applyAttempt_ok_fields (runAttempts (freshJob t)
      (msgs.map (fun x => (x.1, x.2.1,
        (Except.error x.2.2 : Except String ResultPayload))))) s e r
    refine ⟨?_, ?_, Or.inl ?_, ?_⟩
    · rw [hsplit, hmid.2.2.2.2.2]
      simp
    · rw [hsplit]
      show (applyAttempt _ _).error.isSome = _
      rw [hmid.2.1]
      have := h.2.1
      rw [hfresh2] at this
      simpa [errorPopulated] using this
    · rw [hsplit]; exact hmid.1
    · rw [hsplit, hmid.2.2.2.2.2]
      simp

/-- Closed instance of the amended C8. -/
theorem payload_population_amended_witness :
    resultPopulated (runAttempts (freshJob 0)
        [(1, 2, Except.error "boom"), (3, 4, Except.ok demoPayload)]) = true ∧
    errorPopulated (runAttempts (freshJob 0)
        [(1, 2, Except.error "boom"), (3, 4, Except.ok demoPayload)]) = true := by
  have h := payload_population_amended 0 [(1, 2, "boom")] (some (3, 4, demoPayload))
    (Or.inl (by simp))
  exact ⟨by simpa using h.1, by simpa using h.2.1⟩

/-! ## C9 — timestamps (corrected) -/

/-- C9 counterexample: a retried job has `startedAt` and `completedAt`
rewritten by the second attempt — the timestamps are not set at most once
over the job's lifetime. -/
theorem timestamps_overwrite_counterexample :
    (applyAttempt (freshJob 0) (1, 2, Except.error "first failure")).startedAt
        = some 1 ∧
    (applyAttempt (applyAttempt (freshJob 0) (1, 2, Except.error "first failure"))
        (3, 4, Except.ok demoPayload)).startedAt = some 3 ∧
    (applyAttempt (freshJob 0) (1, 2, Except.error "first failure")).completedAt
        = some 2 ∧
    (applyAttempt (applyAttempt (freshJob 0) (1, 2, Except.error "first failure"))
        (3, 4, Except.ok demoPayload)).completedAt = some 4 :=
  ⟨rfl, rfl, rfl, rfl⟩

/-- C9 amended: `createdAt` is set once at submission and never touched;
`startedAt` and `completedAt` are (re)stamped on every attempt, so after
the final attempt they carry its start and end times; with a monotone
clock the three final timestamps still satisfy
created ≤ started ≤ completed. -/
theorem timestamps_amended (t : Nat)
    (init : List (Nat × Nat × Except String ResultPayload)) (s e : Nat)
    (o : Except String ResultPayload) (hts : t ≤ s) (hse : s ≤ e) :
    (runAttempts (freshJob t) (init ++ [(s, e, o)])).createdAt = t ∧
    (runAttempts (freshJob t) (init ++ [(s, e, o)])).startedAt = some s ∧
    (runAttempts (freshJob t) (init ++ [(s, e, o)])).completedAt = some e ∧
    (∀ ts, (runAttempts (freshJob t) (init ++ [(s, e, o)])).startedAt = some ts →
      (runAttempts (freshJob t) (init ++ [(s, e, o)])).createdAt ≤ ts) ∧
    (∀ ts te, (runAttempts (freshJob t) (init ++ [(s, e, o)])).startedAt = some ts →
      (runAttempts (freshJob t) (init ++ [(s, e, o)])).completedAt = some te →
      ts ≤ te) := by
  have hsplit : runAttempts (freshJob t) (init ++ [(s, e, o)]) =
      applyAttempt (runAttempts (freshJob t) init) (s, e, o) := by
    simp [runAttempts, List.foldl_append]
  have hst := applyAttempt_stamps (runAttempts (freshJob t) init) (s, e, o)
  have hcr : (runAttempts (freshJob t) init).createdAt = t :=
    runAttempts_createdAt init (freshJob t)
  rw [hsplit]
  refine ⟨by rw [hst.2.2, hcr], hst.1, hst.2.1, ?_, ?_⟩
  · intro ts h1
    rw [hst.1] at h1
    rw [hst.2.2, hcr]
    cases h1
    exact hts
  · intro ts te h1 h2
    rw [hst.1] at h1
    rw [hst.2.1] at h2
    cases h1
    cases h2
    exact hse

/-- Closed instance of the amended C9. -/
theorem timestamps_amended_witness :
    (runAttempts (freshJob 0)
        [(1, 2, Except.error "boom"), (3, 4, Except.ok demoPayload)]).createdAt = 0 ∧
    (runAttempts (freshJob 0)
        [(1, 2, Except.error "boom"), (3, 4, Except.ok demoPayload)]).startedAt
      = some 3 ∧
    (runAttempts (freshJob 0)
        [(1, 2, Except.error "boom"), (3, 4, Except.ok demoPayload)]).completedAt
      = some 4 := by
  have h := timestamps_amended 0 [(1, 2, Except.error "boom")] 3 4
    (Except.ok demoPayload) (by norm_num) (by norm_num)
  exact ⟨h.1, h.2.1, h.2.2.1⟩

/-! ## Provider-ordering lemmas -/

theorem insertSorted_perm (c : ProviderCfg) (l : List ProviderCfg) :
    (insertSorted c l).Perm (c :: l) := by
  induction l with
  | nil => simp [insertSorted]
  | cons d ds ih =>
    by_cases h : c.priority < d.priority
    · simp [insertSorted, h]
    · simp only [insertSorted, if_neg h]
      exact (ih.cons d).trans (List.Perm.swap c d ds)

theorem sortByPriority_perm (l : List ProviderCfg) : (sortByPriority l).Perm l := by
  induction l with
  | nil => simp [sortByPriority]
  | cons x xs ih =>
    show (insertSorted x (sortByPriority xs)).Perm (x :: xs)
    exact (insertSorted_perm x (sortByPriority xs)).trans (ih.cons x)

theorem insertSorted_pairwise (c : ProviderCfg) (l : List ProviderCfg)
    (h : l.Pairwise (fun a b => a.priority ≤ b.priority)) :
    (insertSorted c l).Pairwise (fun a b => a.priority ≤ b.priority) := by
  induction l with
  | nil => simp [insertSorted]
  | cons d ds ih =>
    rcases List.pairwise_cons.mp h with ⟨hd, hds⟩
    by_cases hc : c.priority < d.priority
    · simp only [insertSorted, if_pos hc]
      refine List.pairwise_cons.mpr ⟨?_, h⟩
      intro x hx
      rcases List.mem_cons.mp hx with rfl | hx
      · exact le_of_lt hc
      · exact le_trans (le_of_lt hc) (hd x hx)
    · simp only [insertSorted, if_neg hc]
      refine List.pairwise_cons.mpr ⟨?_, ih hds⟩
      intro x hx
      have hx' := (insertSorted_perm c ds).mem_iff.mp hx
      rcases List.mem_cons.mp hx' with rfl | hx'
      · exact le_of_not_lt hc
      · exact hd x hx'

theorem sortByPriority_pairwise (l : List ProviderCfg) :
    (sortByPriority l).Pairwise (fun a b => a.priority ≤ b.priority) := by
  induction l with
  | nil => simp [sortByPriority]
  | cons x xs ih =>
    exact insertSorted_pairwise x (sortByPriority xs) ih

/-! ## Attempt-sequence lemmas -/

theorem lastFailure_acc (l : List AttemptOutcome) (a : Option LLMError) :
    l.foldl (fun acc x => match x with | .failure e => some e | _ => acc) a =
      match lastFailure l with
      | some e => some e
      | none => a := by
  induction l generalizing a with
  | nil => simp [lastFailure]
  | cons x xs ih =>
    show xs.foldl _ _ = _
    rw [ih]
    have hx : lastFailure (x :: xs) =
        match lastFailure xs with
        | some e => some e
        | none => match x with | .failure e => some e | _ => none := by
      show xs.foldl _ _ = _
      rw [ih]
    rw [hx]
    cases hxs : lastFailure xs with
    | some e => simp
    | none => cases x <;> simp

theorem lastFailure_cons_failure (e : LLMError) (l : List AttemptOutcome) :
    lastFailure (.failure e :: l) =
      match lastFailure l with
      | some x => some x
      | none => some e := by
  show l.foldl _ (some e) = _
  rw [lastFailure_acc]

theorem lastFailure_append (l1 l2 : List AttemptOutcome) :
    lastFailure (l1 ++ l2) =
      match lastFailure l2 with
      | some e => some e
      | none => lastFailure l1 := by
  show (l1 ++ l2).foldl _ none = _
  rw [List.foldl_append]
  exact lastFailure_acc l2 _

theorem firstSuccess_append (l1 l2 : List AttemptOutcome) :
    firstSuccess (l1 ++ l2) =
      match firstSuccess l1 with
      | some r => some r
      | none => firstSuccess l2 := by
  induction l1 with
  | nil => simp [firstSuccess]
  | cons x xs ih =>
    cases x with
    | success r => simp [firstSuccess]
    | failure e => simpa [firstSuccess] using ih

/-- Characterization of the per-provider retry loop against the claim's
cut attempt stream. -/
theorem tryAttempts_cases (oracle : CallOracle) (name : String) :
    ∀ (remaining start : Nat) (lastErr : Option LLMError),
    (∃ resp, tryAttempts oracle name start remaining lastErr = .inl resp ∧
      firstSuccess (cutAttempts (attemptStream oracle name start remaining)) =
        some resp) ∨
    (∃ e, tryAttempts oracle name start remaining lastErr = .inr (some e, true) ∧
      firstSuccess (cutAttempts (attemptStream oracle name start remaining)) =
        none ∧
      lastFailure (cutAttempts (attemptStream oracle name start remaining)) =
        some e) ∨
    (∃ e', tryAttempts oracle name start remaining lastErr = .inr (e', false) ∧
      firstSuccess (cutAttempts (attemptStream oracle name start remaining)) =
        none ∧
      e' = (match lastFailure (cutAttempts (attemptStream oracle name start remaining)) with
            | some x => some x
            | none => lastErr)) := by
  intro remaining
  induction remaining with
  | zero =>
    intro start lastErr
    refine Or.inr (Or.inr ⟨lastErr, rfl, ?_, ?_⟩) <;>
      simp [attemptStream, cutAttempts, firstSuccess, lastFailure]
  | succ r ih =>
    intro start lastErr
    cases horacle : oracle name start with
    | success resp =>
      refine Or.inl ⟨resp, ?_, ?_⟩
      · simp [tryAttempts, horacle]
      · simp [attemptStream, horacle, cutAttempts, firstSuccess]
    | failure e =>
      by_cases hrl : isRateLimitError e = true
      · refine Or.inr (Or.inl ⟨e, ?_, ?_, ?_⟩)
        · simp [tryAttempts, horacle, hrl]
        · simp [attemptStream, horacle, cutAttempts, hrl, firstSuccess]
        · simp [attemptStream, horacle, cutAttempts, hrl, lastFailure, firstSuccess]
      · have hstep : tryAttempts oracle name start (r + 1) lastErr =
            tryAttempts oracle name (start + 1) r (some e) := by
          simp [tryAttempts, horacle, hrl]
        have hcut : cutAttempts (attemptStream oracle name start (r + 1)) =
            .failure e :: cutAttempts (attemptStream oracle name (start + 1) r) := by
          simp [attemptStream, horacle, cutAttempts, hrl]
        have hfirst : firstSuccess (cutAttempts (attemptStream oracle name start (r + 1))) =
            firstSuccess (cutAttempts (attemptStream oracle name (start + 1) r)) := by
          rw [hcut]; simp [firstSuccess]
        have hlast : lastFailure (cutAttempts (attemptStream oracle name start (r + 1))) =
            (match lastFailure (cutAttempts (attemptStream oracle name (start + 1) r)) with
             | some x => some x
             | none => some e) := by
          rw [hcut]; exact lastFailure_cons_failure e _
        rcases ih (start + 1) (some e) with
          ⟨resp, h1, h2⟩ | ⟨e2, h1, h2, h3⟩ | ⟨e', h1, h2, h3⟩
        · exact Or.inl ⟨resp, by rw [hstep, h1], by rw [hfirst, h2]⟩
        · refine Or.inr (Or.inl ⟨e2, by rw [hstep, h1], by rw [hfirst, h2], ?_⟩)
          rw [hlast, h3]
        · refine Or.inr (Or.inr ⟨e', by rw [hstep, h1], by rw [hfirst, h2], ?_⟩)
          rw [hlast]
          cases hrest : lastFailure (cutAttempts (attemptStream oracle name (start + 1) r)) with
          | some x => rw [hrest] at h3; simpa using h3
          | none => rw [hrest] at h3; simpa using h3

/-! ## Limiter-map lemmas -/

theorem lookupLimiter_map_set_ne (m : LimiterMap) (k k' : String)
    (v : RateLimiter) (h : k' ≠ k) :
    lookupLimiter (m.map (fun e => if e.1 == k then (k, v) else e)) k' =
      lookupLimiter m k' := by
  have hkk' : (k == k') = false := by simpa using Ne.symm h
  induction m with
  | nil => rfl
  | cons e es ih =>
    by_cases he : (e.1 == k) = true
    · have he' : e.1 = k := by simpa using he
      have h2 : (e.1 == k') = false := by rw [he']; exact hkk'
      simp [lookupLimiter, he, hkk', h2]
      simpa using ih
    · have he2 : (e.1 == k) = false := by simpa using he
      cases hk' : (e.1 == k') with
      | true => simp [lookupLimiter, he2, hk']
      | false =>
        simp [lookupLimiter, he2, hk']
        simpa using ih

theorem lookupLimiter_append_ne (m : LimiterMap) (k k' : String)
    (v : RateLimiter) (h : k' ≠ k) :
    lookupLimiter (m ++ [(k, v)]) k' = lookupLimiter m k' := by
  have hkk' : (k == k') = false := by simpa using Ne.symm h
  induction m with
  | nil => simp [lookupLimiter, hkk']
  | cons e es ih =>
    cases hk' : (e.1 == k') with
    | true => simp [lookupLimiter, hk']
    | false => simp [lookupLimiter, hk', ih]

theorem lookupLimiter_set_ne (m : LimiterMap) (k k' : String) (v : RateLimiter)
    (h : k' ≠ k) :
    lookupLimiter (setLimiter m k v) k' = lookupLimiter m k' := by
  unfold setLimiter
  by_cases hany : m.any (fun e => e.1 == k)
  · rw [if_pos hany]
    exact lookupLimiter_map_set_ne m k k' v h
  · rw [if_neg hany]
    exact lookupLimiter_append_ne m k k' v h

theorem isRateLimited_mark_ne (cfg : List ProviderCfg) (rl : LimiterMap)
    (now : Nat) (p q : String) (h : q ≠ p) :
    isRateLimited cfg (markRateLimited rl now p) now q =
      isRateLimited cfg rl now q := by
  unfold isRateLimited markRateLimited
  rw [lookupLimiter_set_ne rl p q _ h]

/-! ## Fallback-loop equivalence lemmas -/

theorem bool_true_not_false {b : Bool} (h : b = true) : ¬ b = false := by
  rw [h]; exact fun hcon => Bool.noConfusion hcon

theorem bool_false_not_true {b : Bool} (h : b = false) : ¬ b = true := by
  rw [h]; exact fun hcon => Bool.noConfusion hcon

/-- Unfolding of the provider loop at a cons cell, phrased with explicit
Boolean conditions. -/
theorem genGo_cons (oracle : CallOracle) (cfg : List ProviderCfg)
    (inited : List String) (now maxRetries : Nat) (p : String)
    (ps : List String) (rl : LimiterMap) (lastErr : Option LLMError) :
    genGo oracle cfg inited now maxRetries (p :: ps) rl lastErr =
      if inited.contains p = false then
        genGo oracle cfg inited now maxRetries ps rl lastErr
      else if isRateLimited cfg rl now p = true then
        genGo oracle cfg inited now maxRetries ps rl lastErr
      else
        match tryAttempts oracle p 1 maxRetries lastErr with
        | .inl resp => .ok (resp, trackRequest rl now p)
        | .inr (e, true) =>
          genGo oracle cfg inited now maxRetries ps (markRateLimited rl now p) e
        | .inr (e, false) => genGo oracle cfg inited now maxRetries ps rl e := by
  cases hc : inited.contains p with
  | false => simp only [genGo]; rw [hc]; simp
  | true =>
    cases hl : isRateLimited cfg rl now p with
    | false => simp only [genGo]; rw [hc, hl]; simp
    | true => simp only [genGo]; rw [hc, hl]; simp

theorem claimAux_cons_skip (oracle : CallOracle) (cfg : List ProviderCfg)
    (inited : List String) (now maxRetries : Nat) (p : String) (ps : List String)
    (rl : LimiterMap) (lastErr : Option LLMError)
    (h : (inited.contains p && !(isRateLimited cfg rl now p)) = false) :
    claimGenerateAux oracle cfg inited now maxRetries (p :: ps) rl lastErr =
      claimGenerateAux oracle cfg inited now maxRetries ps rl lastErr := by
  unfold claimGenerateAux
  rw [List.filter_cons, if_neg (bool_false_not_true h)]

theorem claimAux_cons_active (oracle : CallOracle) (cfg : List ProviderCfg)
    (inited : List String) (now maxRetries : Nat) (p : String) (ps : List String)
    (rl : LimiterMap) (lastErr : Option LLMError)
    (hin : inited.contains p = true)
    (hlim : isRateLimited cfg rl now p = false)
    (hfs : firstSuccess (cutAttempts (attemptStream oracle p 1 maxRetries)) = none) :
    claimGenerateAux oracle cfg inited now maxRetries (p :: ps) rl lastErr =
      claimGenerateAux oracle cfg inited now maxRetries ps rl
        (match lastFailure (cutAttempts (attemptStream oracle p 1 maxRetries)) with
         | some x => some x
         | none => lastErr) := by
  unfold claimGenerateAux
  rw [List.filter_cons, if_pos (by rw [hin, hlim]; rfl)]
  simp only [List.flatMap_cons]
  rw [firstSuccess_append, hfs]
  simp only []
  cases hrest : firstSuccess ((ps.filter (fun q =>
      inited.contains q && !(isRateLimited cfg rl now q))).flatMap
      (fun q => cutAttempts (attemptStream oracle q 1 maxRetries))) with
  | some r => rfl
  | none =>
    rw [lastFailure_append]
    cases h2 : lastFailure ((ps.filter (fun q =>
        inited.contains q && !(isRateLimited cfg rl now q))).flatMap
        (fun q => cutAttempts (attemptStream oracle q 1 maxRetries))) with
    | some x => rfl
    | none =>
      cases h3 : lastFailure (cutAttempts (attemptStream oracle p 1 maxRetries)) <;> rfl

theorem claimAux_mark_ne (oracle : CallOracle) (cfg : List ProviderCfg)
    (inited : List String) (now maxRetries : Nat) (p : String) (ps : List String)
    (rl : LimiterMap) (lastErr : Option LLMError) (hp : p ∉ ps) :
    claimGenerateAux oracle cfg inited now maxRetries ps
        (markRateLimited rl now p) lastErr =
      claimGenerateAux oracle cfg inited now maxRetries ps rl lastErr := by
  unfold claimGenerateAux
  have hfil : ps.filter (fun q =>
      inited.contains q && !(isRateLimited cfg (markRateLimited rl now p) now q)) =
      ps.filter (fun q => inited.contains q && !(isRateLimited cfg rl now q)) := by
    refine List.filter_congr ?_
    intro q hq
    rw [isRateLimited_mark_ne cfg rl now p q (fun hqp => hp (hqp ▸ hq))]
  rw [hfil]

/-- The provider loop of `generateCompletion` computes exactly the claim's
reference semantics (over any duplicate-free provider list). -/
theorem genGo_eq_claim (oracle : CallOracle) (cfg : List ProviderCfg)
    (inited : List String) (now maxRetries : Nat) :
    ∀ (names : List String) (rl : LimiterMap) (lastErr : Option LLMError),
    names.Nodup →
    (genGo oracle cfg inited now maxRetries names rl lastErr).map Prod.fst =
      (claimGenerateAux oracle cfg inited now maxRetries names rl
        lastErr).mapError allFailedMsg := by
  intro names
  induction names with
  | nil =>
    intro rl lastErr _
    simp [genGo, claimGenerateAux, firstSuccess, lastFailure, Except.mapError,
      Except.map]
  | cons p ps ih =>
    intro rl lastErr hnd
    rcases List.nodup_cons.mp hnd with ⟨hp, hps⟩
    by_cases hin : inited.contains p = true
    · by_cases hlim : isRateLimited cfg rl now p = true
      · have h1 : genGo oracle cfg inited now maxRetries (p :: ps) rl lastErr =
            genGo oracle cfg inited now maxRetries ps rl lastErr := by
          rw [genGo_cons, if_neg (bool_true_not_false hin), if_pos hlim]
        rw [h1, claimAux_cons_skip oracle cfg inited now maxRetries p ps rl lastErr
          (by rw [hin, hlim]; rfl)]
        exact ih rl lastErr hps
      · have hlim' : isRateLimited cfg rl now p = false := by
          simpa using hlim
        rcases tryAttempts_cases oracle p maxRetries 1 lastErr with
          ⟨resp, h1, h2⟩ | ⟨e, h1, h2, h3⟩ | ⟨e', h1, h2, h3⟩
        · -- first success on this provider
          have hL : genGo oracle cfg inited now maxRetries (p :: ps) rl lastErr =
              .ok (resp, trackRequest rl now p) := by
            rw [genGo_cons, if_neg (bool_true_not_false hin),
              if_neg (bool_false_not_true hlim'), h1]
          have hR : claimGenerateAux oracle cfg inited now maxRetries (p :: ps)
              rl lastErr = .ok resp := by
            unfold claimGenerateAux
            rw [List.filter_cons, if_pos (by rw [hin, hlim']; rfl)]
            simp only [List.flatMap_cons]
            rw [firstSuccess_append, h2]
          rw [hL, hR]
          rfl
        · -- rate-limit break on this provider
          have hL : genGo oracle cfg inited now maxRetries (p :: ps) rl lastErr =
              genGo oracle cfg inited now maxRetries ps
                (markRateLimited rl now p) (some e) := by
            rw [genGo_cons, if_neg (bool_true_not_false hin),
              if_neg (bool_false_not_true hlim'), h1]
          rw [hL, ih _ _ hps,
            claimAux_mark_ne oracle cfg inited now maxRetries p ps rl (some e) hp,
            claimAux_cons_active oracle cfg inited now maxRetries p ps rl lastErr
              hin hlim' h2, h3]
        · -- retry budget exhausted on this provider
          have hL : genGo oracle cfg inited now maxRetries (p :: ps) rl lastErr =
              genGo oracle cfg inited now maxRetries ps rl e' := by
            rw [genGo_cons, if_neg (bool_true_not_false hin),
              if_neg (bool_false_not_true hlim'), h1]
          rw [hL, ih _ _ hps,
            claimAux_cons_active oracle cfg inited now maxRetries p ps rl lastErr
              hin hlim' h2, h3]
    · have hin' : inited.contains p = false := by simpa using hin
      have h1 : genGo oracle cfg inited now maxRetries (p :: ps) rl lastErr =
          genGo oracle cfg inited now maxRetries ps rl lastErr := by
        rw [genGo_cons, if_pos hin']
      rw [h1, claimAux_cons_skip oracle cfg inited now maxRetries p ps rl lastErr
        (by rw [hin']; rfl)]
      exact ih rl lastErr hps

theorem tryAttempts_congr (oracle oracle' : CallOracle) (q : String)
    (hq : ∀ k, oracle q k = oracle' q k) :
    ∀ (remaining start : Nat) (lastErr : Option LLMError),
    tryAttempts oracle q start remaining lastErr =
      tryAttempts oracle' q start remaining lastErr := by
  intro remaining
  induction remaining with
  | zero => intro start lastErr; rfl
  | succ r ih =>
    intro start lastErr
    show (match oracle q start with
          | .success resp => Sum.inl resp
          | .failure e =>
            if isRateLimitError e then Sum.inr (some e, true)
            else tryAttempts oracle q (start + 1) r (some e)) = _
    rw [hq start]
    show _ = (match oracle' q start with
          | .success resp => Sum.inl resp
          | .failure e =>
            if isRateLimitError e then Sum.inr (some e, true)
            else tryAttempts oracle' q (start + 1) r (some e))
    cases oracle' q start with
    | success resp => rfl
    | failure e =>
      by_cases hrl : isRateLimitError e = true
      · simp [hrl]
      · simp only [hrl, if_false, Bool.false_eq_true]
        rw [ih]

/-- A provider that is rate-limited at call time is never queried: the
result does not depend on the oracle's behaviour at that provider. -/
theorem genGo_oracle_indep (cfg : List ProviderCfg) (inited : List String)
    (now maxRetries : Nat) (p : String) (oracle oracle' : CallOracle)
    (hagree : ∀ q, q ≠ p → ∀ k, oracle q k = oracle' q k) :
    ∀ (names : List String) (rl : LimiterMap) (lastErr : Option LLMError),
    isRateLimited cfg rl now p = true →
    genGo oracle cfg inited now maxRetries names rl lastErr =
      genGo oracle' cfg inited now maxRetries names rl lastErr := by
  intro names
  induction names with
  | nil => intro rl lastErr _; rfl
  | cons q qs ih =>
    intro rl lastErr hlimp
    by_cases hin : inited.contains q = true
    · by_cases hlim : isRateLimited cfg rl now q = true
      · have h1 : genGo oracle cfg inited now maxRetries (q :: qs) rl lastErr =
            genGo oracle cfg inited now maxRetries qs rl lastErr := by
          rw [genGo_cons, if_neg (bool_true_not_false hin), if_pos hlim]
        have h2 : genGo oracle' cfg inited now maxRetries (q :: qs) rl lastErr =
            genGo oracle' cfg inited now maxRetries qs rl lastErr := by
          rw [genGo_cons, if_neg (bool_true_not_false hin), if_pos hlim]
        rw [h1, h2, ih rl lastErr hlimp]
      · have hqp : q ≠ p := fun hq => hlim (hq ▸ hlimp)
        have hlim' : isRateLimited cfg rl now q = false := by simpa using hlim
        have htry := tryAttempts_congr oracle oracle' q (hagree q hqp)
          maxRetries 1 lastErr
        rw [genGo_cons, if_neg (bool_true_not_false hin),
          if_neg (bool_false_not_true hlim'), htry,
          genGo_cons oracle' cfg inited now maxRetries q qs rl lastErr,
          if_neg (bool_true_not_false hin), if_neg (bool_false_not_true hlim')]
        cases tryAttempts oracle' q 1 maxRetries lastErr with
        | inl resp => rfl
        | inr pr =>
          rcases pr with ⟨e, b⟩
          cases b with
          | true =>
            have hmark : isRateLimited cfg (markRateLimited rl now q) now p = true := by
              rw [isRateLimited_mark_ne cfg rl now q p (Ne.symm hqp)]
              exact hlimp
            exact ih (markRateLimited rl now q) e hmark
          | false => exact ih rl e hlimp
    · have hin' : inited.contains q = false := by simpa using hin
      have h1 : genGo oracle cfg inited now maxRetries (q :: qs) rl lastErr =
          genGo oracle cfg inited now maxRetries qs rl lastErr := by
        rw [genGo_cons, if_pos hin']
      have h2 : genGo oracle' cfg inited now maxRetries (q :: qs) rl lastErr =
          genGo oracle' cfg inited now maxRetries qs rl lastErr := by
        rw [genGo_cons, if_pos hin']
      rw [h1, h2, ih rl lastErr hlimp]

theorem getSortedProviders_nodup (cfg : List ProviderCfg) (inited : List String)
    (preferred : Option String) (h : (cfg.map (·.name)).Nodup) :
    (getSortedProviders cfg inited preferred).Nodup := by
  have hbase : (getSortedProviders cfg inited none).Nodup := by
    have hperm : ((sortByPriority (cfg.filter
          (fun p => p.enabled && inited.contains p.name))).map (·.name)).Perm
        ((cfg.filter (fun p => p.enabled && inited.contains p.name)).map (·.name)) :=
      (sortByPriority_perm _).map _
    have hsub : ((cfg.filter (fun p => p.enabled && inited.contains p.name)).map
        (·.name)).Sublist (cfg.map (·.name)) :=
      (List.filter_sublist cfg).map _
    exact hperm.nodup_iff.mpr (h.sublist hsub)
  cases preferred with
  | none => exact hbase
  | some pref =>
    show (if pref != "" && inited.contains pref then
        pref :: (getSortedProviders cfg inited none).filter (fun q => q != pref)
      else getSortedProviders cfg inited none).Nodup
    by_cases hc : (pref != "" && inited.contains pref) = true
    · rw [if_pos hc]
      refine List.nodup_cons.mpr ⟨?_, hbase.filter _⟩
      intro hmem
      have := List.of_mem_filter hmem
      simp at this
    · rw [if_neg hc]
      exact hbase

/-! ## C2 — the fallback engine -/

/-- C2: (i) the base try-order is the enabled, initialized providers in
ascending priority; (ii) a non-empty preferred hint naming an initialized
provider is moved to the front (and an unavailable hint is ignored);
(iii) `generateCompletion` computes exactly the claim semantics: skip
currently rate-limited backends, return the first successful attempt, and
otherwise throw a single aggregate error carrying the most recent
underlying error message; (iv) a backend that is rate-limited at call
time is never queried, so none of its retry budget is consumed. -/
theorem generateCompletion_spec (oracle : CallOracle) (cfg : List ProviderCfg)
    (inited : List String) (rl : LimiterMap) (now maxRetries : Nat)
    (preferred : Option String) (hnames : (cfg.map (·.name)).Nodup) :
    (∃ scfg : List ProviderCfg,
      scfg.Perm (cfg.filter (fun p => p.enabled && inited.contains p.name)) ∧
      scfg.Pairwise (fun a b => a.priority ≤ b.priority) ∧
      getSortedProviders cfg inited none = scfg.map (·.name)) ∧
    (∀ pref : String, pref ≠ "" → inited.contains pref = true →
      getSortedProviders cfg inited (some pref) =
        pref :: (getSortedProviders cfg inited none).filter (fun q => q != pref)) ∧
    (∀ pref : String, inited.contains pref = false →
      getSortedProviders cfg inited (some pref) =
        getSortedProviders cfg inited none) ∧
    ((generateCompletion oracle cfg inited rl now maxRetries preferred).map
        Prod.fst =
      (claimGenerate oracle cfg inited rl now maxRetries preferred).mapError
        allFailedMsg) ∧
    (∀ p, isRateLimited cfg rl now p = true →
      ∀ oracle' : CallOracle, (∀ q, q ≠ p → ∀ k, oracle q k = oracle' q k) →
      generateCompletion oracle cfg inited rl now maxRetries preferred =
        generateCompletion oracle' cfg inited rl now maxRetries preferred) := by
  refine ⟨?_, ?_, ?_, ?_, ?_⟩
  · exact ⟨sortByPriority (cfg.filter (fun p => p.enabled && inited.contains p.name)),
      sortByPriority_perm _, sortByPriority_pairwise _, rfl⟩
  · intro pref hne hin
    show (if pref != "" && inited.contains pref then
        pref :: (getSortedProviders cfg inited none).filter (fun q => q != pref)
      else getSortedProviders cfg inited none) = _
    rw [if_pos (by rw [hin, Bool.and_true]; exact bne_iff_ne.mpr hne)]
  · intro pref hin
    show (if pref != "" && inited.contains pref then
        pref :: (getSortedProviders cfg inited none).filter (fun q => q != pref)
      else getSortedProviders cfg inited none) = _
    rw [if_neg (by rw [hin, Bool.and_false]; exact fun hcon => Bool.noConfusion hcon)]
  · exact genGo_eq_claim oracle cfg inited now maxRetries
      (getSortedProviders cfg inited preferred) rl none
      (getSortedProviders_nodup cfg inited preferred hnames)
  · intro p hlimp oracle' hagree
    exact genGo_oracle_indep cfg inited now maxRetries p oracle oracle' hagree
      (getSortedProviders cfg inited preferred) rl none hlimp

/-- Closed instance of C2: gemini (priority 1) is marked rate-limited, so
a call reaches openrouter (priority 2) without consuming gemini's budget;
openrouter fails transiently once and succeeds on its second attempt. -/
theorem generateCompletion_spec_witness :
    (generateCompletion
      (fun name k =>
        if name == "openrouter" && k == 2 then
          .success ⟨"ok", "openrouter", "meta-llama/llama-3.1-8b-instruct:free", 42⟩
        else .failure ⟨some "server error", some 500, none⟩)
      [⟨"gemini", 1, true, 15⟩, ⟨"openrouter", 2, true, 20⟩]
      ["gemini", "openrouter"]
      [("gemini", ⟨999, 60000⟩)]
      0 3 none).map Prod.fst =
      Except.ok ⟨"ok", "openrouter", "meta-llama/llama-3.1-8b-instruct:free", 42⟩ := by
  rw [(generateCompletion_spec
      (fun name k =>
        if name == "openrouter" && k == 2 then
          .success ⟨"ok", "openrouter", "meta-llama/llama-3.1-8b-instruct:free", 42⟩
        else .failure ⟨some "server error", some 500, none⟩)
      [⟨"gemini", 1, true, 15⟩, ⟨"openrouter", 2, true, 20⟩]
      ["gemini", "openrouter"]
      [("gemini", ⟨999, 60000⟩)]
      0 3 none (by decide)).2.2.2.1]
  rfl

/-! ## Decimal digit lemmas -/

theorem digitChar_isDigit (d : Nat) : (digitChar d).isDigit = true := by
  unfold digitChar
  split <;> decide

theorem digitChar_toNat (d : Nat) (h : d < 10) :
    (digitChar d).toNat - 48 = d := by
  interval_cases d <;> decide

theorem digitsToNat_append (a b : List Char) (acc : Nat) :
    digitsToNat (a ++ b) acc = digitsToNat b (digitsToNat a acc) := by
  induction a generalizing acc with
  | nil => rfl
  | cons c cs ih => simp [digitsToNat, ih]

theorem digitsToNat_zeros (k : Nat) (ds : List Char) :
    digitsToNat (List.replicate k '0' ++ ds) 0 = digitsToNat ds 0 := by
  induction k with
  | zero => simp
  | succ k ih =>
    rw [List.replicate_succ, List.cons_append]
    show digitsToNat (List.replicate k '0' ++ ds) (0 * 10 + ('0'.toNat - 48)) = _
    have h0 : 0 * 10 + ('0'.toNat - 48) = 0 := by decide
    rw [h0]
    exact ih

theorem natDigitsGo_val : ∀ (fuel n : Nat) (acc : List Char) (accN : Nat),
    n ≤ fuel →
    digitsToNat (natDigitsGo fuel n acc) accN =
      digitsToNat acc (accN * 10 ^ numDigitsGo fuel n + n) := by
  intro fuel
  induction fuel with
  | zero =>
    intro n acc accN hn
    have hn0 : n = 0 := Nat.le_zero.mp hn
    subst hn0
    show digitsToNat (digitChar 0 :: acc) accN = _
    show digitsToNat acc (accN * 10 + ((digitChar 0).toNat - 48)) = _
    have h0 : (digitChar 0).toNat - 48 = 0 := by decide
    rw [h0]
    show _ = digitsToNat acc (accN * 10 ^ 1 + 0)
    simp
  | succ fuel ih =>
    intro n acc accN hn
    by_cases h10 : n < 10
    · show digitsToNat (if n < 10 then digitChar n :: acc
          else natDigitsGo fuel (n / 10) (digitChar (n % 10) :: acc)) accN = _
      rw [if_pos h10]
      show digitsToNat acc (accN * 10 + ((digitChar n).toNat - 48)) = _
      rw [digitChar_toNat n h10]
      show _ = digitsToNat acc (accN * 10 ^ numDigitsGo (fuel + 1) n + n)
      have hnd : numDigitsGo (fuel + 1) n = 1 := by
        show (if n < 10 then 1 else 1 + numDigitsGo fuel (n / 10)) = 1
        rw [if_pos h10]
      rw [hnd, pow_one]
    · have hdiv : n / 10 ≤ fuel := by omega
      show digitsToNat (if n < 10 then digitChar n :: acc
          else natDigitsGo fuel (n / 10) (digitChar (n % 10) :: acc)) accN = _
      rw [if_neg h10, ih (n / 10) (digitChar (n % 10) :: acc) accN hdiv]
      show digitsToNat acc
          ((accN * 10 ^ numDigitsGo fuel (n / 10) + n / 10) * 10 +
            ((digitChar (n % 10)).toNat - 48)) = _
      rw [digitChar_toNat (n % 10) (Nat.mod_lt n (by omega))]
      have hnd : numDigitsGo (fuel + 1) n = 1 + numDigitsGo fuel (n / 10) := by
        show (if n < 10 then 1 else 1 + numDigitsGo fuel (n / 10)) = _
        rw [if_neg h10]
      rw [hnd]
      congr 1
      have hpow : (10 : Nat) ^ (1 + numDigitsGo fuel (n / 10)) =
          10 * 10 ^ numDigitsGo fuel (n / 10) := by
        rw [pow_add, pow_one]
      rw [hpow]
      calc (accN * 10 ^ numDigitsGo fuel (n / 10) + n / 10) * 10 + n % 10 =
            accN * (10 * 10 ^ numDigitsGo fuel (n / 10)) +
              (10 * (n / 10) + n % 10) := by ring
        _ = accN * (10 * 10 ^ numDigitsGo fuel (n / 10)) + n := by
            rw [Nat.div_add_mod]

theorem natDigitsGo_len : ∀ (fuel n : Nat) (acc : List Char),
    (natDigitsGo fuel n acc).length = numDigitsGo fuel n + acc.length := by
  intro fuel
  induction fuel with
  | zero =>
    intro n acc
    show (digitChar n :: acc).length = 1 + acc.length
    simp [Nat.add_comm]
  | succ fuel ih =>
    intro n acc
    by_cases h10 : n < 10
    · show (if n < 10 then digitChar n :: acc else _).length = _
      rw [if_pos h10]
      show acc.length + 1 = (if n < 10 then 1 else _) + acc.length
      rw [if_pos h10]
      omega
    · show (if n < 10 then _ else
          natDigitsGo fuel (n / 10) (digitChar (n % 10) :: acc)).length = _
      rw [if_neg h10, ih]
      show numDigitsGo fuel (n / 10) + (acc.length + 1) =
          (if n < 10 then 1 else 1 + numDigitsGo fuel (n / 10)) + acc.length
      rw [if_neg h10]
      omega

theorem natDigitsGo_all_digits : ∀ (fuel n : Nat) (acc : List Char),
    (∀ c ∈ acc, c.isDigit = true) →
    ∀ c ∈ natDigitsGo fuel n acc, c.isDigit = true := by
  intro fuel
  induction fuel with
  | zero =>
    intro n acc hacc c hc
    rcases List.mem_cons.mp hc with rfl | hc
    · exact digitChar_isDigit n
    · exact hacc c hc
  | succ fuel ih =>
    intro n acc hacc c hc
    by_cases h10 : n < 10
    · rw [show natDigitsGo (fuel + 1) n acc = digitChar n :: acc by
        show (if n < 10 then _ else _) = _; rw [if_pos h10]] at hc
      rcases List.mem_cons.mp hc with rfl | hc
      · exact digitChar_isDigit n
      · exact hacc c hc
    · rw [show natDigitsGo (fuel + 1) n acc =
          natDigitsGo fuel (n / 10) (digitChar (n % 10) :: acc) by
        show (if n < 10 then _ else _) = _; rw [if_neg h10]] at hc
      refine ih (n / 10) (digitChar (n % 10) :: acc) ?_ c hc
      intro x hx
      rcases List.mem_cons.mp hx with rfl | hx
      · exact digitChar_isDigit (n % 10)
      · exact hacc x hx

theorem numDigitsGo_pos (fuel n : Nat) : 1 ≤ numDigitsGo fuel n := by
  cases fuel with
  | zero => exact le_refl 1
  | succ fuel =>
    show 1 ≤ if n < 10 then 1 else 1 + numDigitsGo fuel (n / 10)
    split <;> omega

theorem natDigits_val (n : Nat) : digitsToNat (natDigits n) 0 = n := by
  have h := natDigitsGo_val n n [] 0 le_rfl
  simpa [natDigits, digitsToNat] using h

theorem natDigits_len (n : Nat) : (natDigits n).length = numDigitsGo n n := by
  have h := natDigitsGo_len n n []
  simpa [natDigits] using h

theorem natDigits_ne_nil (n : Nat) : natDigits n ≠ [] := by
  have h := natDigits_len n
  have h2 := numDigitsGo_pos n n
  intro hcon
  rw [hcon] at h
  simp at h
  omega

theorem natDigits_all_digits (n : Nat) :
    ∀ c ∈ natDigits n, c.isDigit = true :=
  natDigitsGo_all_digits n n [] (by intro c hc; simp at hc)

/-! ## takeWhile / dropWhile helpers -/

theorem takeWhile_append_all {p : Char → Bool} (a b : List Char)
    (h : ∀ c ∈ a, p c = true) :
    (a ++ b).takeWhile p = a ++ b.takeWhile p := by
  induction a with
  | nil => rfl
  | cons c cs ih =>
    have hc := h c (List.mem_cons_self c cs)
    simp [List.takeWhile_cons, hc, ih (fun x hx => h x (List.mem_cons_of_mem c hx))]

theorem dropWhile_append_all {p : Char → Bool} (a b : List Char)
    (h : ∀ c ∈ a, p c = true) :
    (a ++ b).dropWhile p = b.dropWhile p := by
  induction a with
  | nil => rfl
  | cons c cs ih =>
    have hc := h c (List.mem_cons_self c cs)
    simp [List.dropWhile_cons, hc, ih (fun x hx => h x (List.mem_cons_of_mem c hx))]

theorem takeWhile_cons_false {p : Char → Bool} (c : Char) (l : List Char)
    (h : p c = false) : (c :: l).takeWhile p = [] := by
  simp [List.takeWhile_cons, h]

theorem dropWhile_cons_false {p : Char → Bool} (c : Char) (l : List Char)
    (h : p c = false) : (c :: l).dropWhile p = c :: l := by
  simp [List.dropWhile_cons, h]

theorem dropWhile_append_stop {p : Char → Bool} (a : List Char) (c : Char)
    (d : List Char) (h : p c = false) :
    (a ++ c :: d).dropWhile p = a.dropWhile p ++ c :: d := by
  induction a with
  | nil => simp [dropWhile_cons_false c d h]
  | cons x xs ih =>
    cases hx : p x with
    | true => simp [List.dropWhile_cons, hx, ih]
    | false => simp [List.dropWhile_cons, hx]

/-! ## Number rendering facts -/

theorem stopsNum_take (rest : List Char) (h : stopsNum rest = true) :
    rest.takeWhile Char.isDigit = [] := by
  cases rest with
  | nil => rfl
  | cons c r =>
    have hc : c.isDigit = false := by
      have := h
      simp [stopsNum] at this
      simpa using this.1
    exact takeWhile_cons_false c r hc

theorem stopsNum_drop (rest : List Char) (h : stopsNum rest = true) :
    rest.dropWhile Char.isDigit = rest := by
  cases rest with
  | nil => rfl
  | cons c r =>
    have hc : c.isDigit = false := by
      have := h
      simp [stopsNum] at this
      simpa using this.1
    exact dropWhile_cons_false c r hc

theorem parseNumCore_renderNum (m e : Nat) (rest : List Char)
    (hrest : stopsNum rest = true) :
    parseNumCore (renderNum m e ++ rest) = some (m, e, rest) := by
  by_cases he : e = 0
  · subst he
    have hrn : renderNum m 0 = natDigits m := by simp [renderNum]
    rw [hrn]
    have htake : (natDigits m ++ rest).takeWhile Char.isDigit = natDigits m := by
      rw [takeWhile_append_all _ _ (natDigits_all_digits m), stopsNum_take rest hrest,
        List.append_nil]
    have hdrop : (natDigits m ++ rest).dropWhile Char.isDigit = rest := by
      rw [dropWhile_append_all _ _ (natDigits_all_digits m), stopsNum_drop rest hrest]
    unfold parseNumCore
    rw [htake, hdrop]
    rw [if_neg (by simp [List.isEmpty_iff, natDigits_ne_nil m])]
    cases rest with
    | nil => simp [natDigits_val m]
    | cons c r =>
      have hc : c.isDigit = false ∧ (c != '.') = true := by
        have := hrest
        simp [stopsNum] at this
        constructor
        · simpa using this.1
        · simpa using this.2
      have hcdot : ¬ (c = '.') := by
        have := hc.2
        simpa using this
      split
      · next c1 r2 heq =>
        injection heq with heq1 heq2
        subst heq1
        subst heq2
        rw [if_neg hcdot]
        simp [natDigits_val m]
      · next heq => exact absurd heq (by simp)
  · -- e ≥ 1: rendered as intPart ++ '.' :: fracPart
    have hrn : renderNum m e =
        (List.replicate (e + 1 - (natDigits m).length) '0' ++
            natDigits m).take
          ((List.replicate (e + 1 - (natDigits m).length) '0' ++
            natDigits m).length - e) ++
        '.' :: (List.replicate (e + 1 - (natDigits m).length) '0' ++
            natDigits m).drop
          ((List.replicate (e + 1 - (natDigits m).length) '0' ++
            natDigits m).length - e) := by
      simp [renderNum, he]
    set padded := List.replicate (e + 1 - (natDigits m).length) '0' ++ natDigits m
      with hpadded
    have hpadlen : e + 1 ≤ padded.length := by
      rw [hpadded]
      simp [List.length_append, List.length_replicate]
      omega
    have hpaddig : ∀ c ∈ padded, c.isDigit = true := by
      intro c hc
      rw [hpadded] at hc
      rcases List.mem_append.mp hc with hc | hc
      · have := List.eq_of_mem_replicate hc
        subst this
        decide
      · exact natDigits_all_digits m c hc
    set I := padded.take (padded.length - e) with hI
    set F := padded.drop (padded.length - e) with hF
    have hIF : I ++ F = padded := List.take_append_drop _ _
    have hIlen : I.length = padded.length - e := by
      rw [hI, List.length_take]
      omega
    have hFlen : F.length = e := by
      rw [hF, List.length_drop]
      omega
    have hIne : I ≠ [] := by
      intro hcon
      have := hIlen
      rw [hcon] at this
      simp at this
      omega
    have hIdig : ∀ c ∈ I, c.isDigit = true := by
      intro c hc
      exact hpaddig c (List.take_subset _ _ hc)
    have hFdig : ∀ c ∈ F, c.isDigit = true := by
      intro c hc
      exact hpaddig c (List.drop_subset _ _ hc)
    rw [hrn]
    have hassoc : (I ++ '.' :: F) ++ rest = I ++ '.' :: (F ++ rest) := by
      simp
    rw [hassoc]
    have htake : (I ++ '.' :: (F ++ rest)).takeWhile Char.isDigit = I := by
      rw [takeWhile_append_all _ _ hIdig,
        takeWhile_cons_false '.' _ (by decide), List.append_nil]
    have hdrop : (I ++ '.' :: (F ++ rest)).dropWhile Char.isDigit =
        '.' :: (F ++ rest) := by
      rw [dropWhile_append_all _ _ hIdig,
        dropWhile_cons_false '.' _ (by decide)]
    unfold parseNumCore
    rw [htake, hdrop]
    rw [if_neg (by simp [List.isEmpty_iff, hIne])]
    have htakeF : (F ++ rest).takeWhile Char.isDigit = F := by
      rw [takeWhile_append_all _ _ hFdig, stopsNum_take rest hrest,
        List.append_nil]
    have hdropF : (F ++ rest).dropWhile Char.isDigit = rest := by
      rw [dropWhile_append_all _ _ hFdig, stopsNum_drop rest hrest]
    have hFne : F ≠ [] := by
      intro hcon
      rw [hcon] at hFlen
      simp at hFlen
      omega
    have hval : digitsToNat (I ++ F) 0 = m := by
      rw [hIF, hpadded, digitsToNat_zeros, natDigits_val]
    split
    · next c1 r2 heq =>
      injection heq with heq1 heq2
      subst heq1
      subst heq2
      rw [if_pos rfl, htakeF, hdropF]
      rw [if_neg (by simp [List.isEmpty_iff, hFne])]
      rw [hval, hFlen]
    · next heq => exact absurd heq (by simp)

/-! ## String parsing round-trip -/

theorem cleanStr_cons (c : Char) (cs : List Char) (h : cleanStr (c :: cs) = true) :
    (c ≠ '"' ∧ c ≠ '\\' ∧ c ≠ '`') ∧ cleanStr cs = true := by
  have h2 := h
  simp only [cleanStr, List.all_cons, Bool.and_eq_true] at h2
  have hc := h2.1
  simp only [cleanChar, Bool.and_eq_true, bne_iff_ne, ne_eq] at hc
  exact ⟨⟨hc.1.1, hc.1.2, hc.2⟩, h2.2⟩

theorem parseStrGo_render (s rest : List Char) (h : cleanStr s = true) :
    parseStrGo (s ++ '"' :: rest) = some (s, rest) := by
  induction s with
  | nil =>
    show parseStrGo ('"' :: rest) = some ([], rest)
    simp [parseStrGo]
  | cons c cs ih =>
    rcases cleanStr_cons c cs h with ⟨⟨hq, hb, _⟩, hcs⟩
    show parseStrGo (c :: (cs ++ '"' :: rest)) = _
    simp only [parseStrGo, if_neg hq, if_neg hb, ih hcs]
    rfl

/-! ## Parser dispatch lemmas -/

theorem skipWs_cons_not_ws (c : Char) (l : List Char) (h : isWsChar c = false) :
    skipWs (c :: l) = c :: l := by
  simp [skipWs, List.dropWhile_cons, h]

theorem not_ws_of_digit (c : Char) (h : c.isDigit = true) :
    isWsChar c = false := by
  by_contra hcon
  have hws : isWsChar c = true := by simpa using hcon
  have hcs : c = ' ' ∨ c = '\n' ∨ c = '\t' ∨ c = '\r' := by
    simpa [isWsChar, or_assoc] using hws
  rcases hcs with rfl | rfl | rfl | rfl <;> exact absurd h (by decide)

theorem digit_head_facts (c : Char) (h : c.isDigit = true) :
    (c = '"') = False ∧ (c = '{') = False ∧ (c = '-') = False := by
  refine ⟨eq_false ?_, eq_false ?_, eq_false ?_⟩ <;>
    (rintro rfl; exact absurd h (by decide))

theorem numNextOk_cons (v : Json) (c : Char) (rest : List Char)
    (h1 : c.isDigit = false) (h2 : c ≠ '.') :
    numNextOk v (c :: rest) = true := by
  cases v <;> simp [numNextOk, stopsNum, h1, h2]

theorem numNextOk_nil (v : Json) : numNextOk v [] = true := by
  cases v <;> simp [numNextOk, stopsNum]

theorem jdepth_pos (v : Json) : 1 ≤ jdepth v := by
  cases v <;> simp [jdepth]

theorem renderNum_head (m e : Nat) :
    ∃ d tail, renderNum m e = d :: tail ∧ d.isDigit = true := by
  by_cases he : e = 0
  · subst he
    cases hnd : natDigits m with
    | nil => exact absurd hnd (natDigits_ne_nil m)
    | cons d t =>
      refine ⟨d, t, by simp [renderNum, hnd], ?_⟩
      exact natDigits_all_digits m d (by rw [hnd]; exact List.mem_cons_self d t)
  · set padded := List.replicate (e + 1 - (natDigits m).length) '0' ++ natDigits m
      with hpadded
    have hpadlen : e + 1 ≤ padded.length := by
      rw [hpadded]
      simp [List.length_append, List.length_replicate]
      omega
    have hIlen : 1 ≤ (padded.take (padded.length - e)).length := by
      rw [List.length_take]
      omega
    cases hI : padded.take (padded.length - e) with
    | nil => rw [hI] at hIlen; simp at hIlen
    | cons d t =>
      refine ⟨d, t ++ '.' :: padded.drop (padded.length - e), ?_, ?_⟩
      · simp [renderNum, he, ← hpadded, hI]
      · have hd : d ∈ padded := by
          have : d ∈ padded.take (padded.length - e) := by
            rw [hI]; exact List.mem_cons_self d t
          exact List.take_subset _ _ this
        rw [hpadded] at hd
        rcases List.mem_append.mp hd with hd | hd
        · have := List.eq_of_mem_replicate hd
          subst this
          decide
        · exact natDigits_all_digits m d hd

theorem parseVal_succ_cons (fuel : Nat) (c : Char) (r : List Char)
    (hws : isWsChar c = false) :
    parseVal (fuel + 1) (c :: r) =
      (if c = '"' then (parseStrGo r).map (fun x => (Json.jstr x.1, x.2))
      else if c = '{' then
        match skipWs r with
        | [] => none
        | c2 :: r2 =>
          if c2 = '}' then some (Json.jobj .fnil, r2)
          else (parseFields fuel r).map (fun x => (Json.jobj x.1, x.2))
      else if c = '-' then
        (parseNumCore r).map (fun x => (Json.jnum true x.1 x.2.1, x.2.2))
      else if c.isDigit then
        (parseNumCore (c :: r)).map (fun x => (Json.jnum false x.1 x.2.1, x.2.2))
      else if c = 't' then
        match r with
        | 'r' :: 'u' :: 'e' :: r2 => some (Json.jbool true, r2)
        | _ => none
      else if c = 'f' then
        match r with
        | 'a' :: 'l' :: 's' :: 'e' :: r2 => some (Json.jbool false, r2)
        | _ => none
      else if c = 'n' then
        match r with
        | 'u' :: 'l' :: 'l' :: r2 => some (Json.jnull, r2)
        | _ => none
      else none) := by
  show (match skipWs (c :: r) with
        | [] => none
        | c :: r => _) = _
  rw [skipWs_cons_not_ws c r hws]

theorem parseFields_succ_quote (fuel : Nat) (r : List Char) :
    parseFields (fuel + 1) ('"' :: r) =
      (match parseStrGo r with
      | none => none
      | some (key, r1) =>
        match skipWs r1 with
        | [] => none
        | c2 :: r2 =>
          if c2 = ':' then
            match parseVal fuel r2 with
            | none => none
            | some (v, r3) =>
              match skipWs r3 with
              | [] => none
              | c3 :: r4 =>
                if c3 = ',' then
                  (parseFields fuel r4).map
                    (fun x => (JFields.fcons key v x.1, x.2))
                else if c3 = '}' then some (JFields.fcons key v .fnil, r4)
                else none
          else none) := by
  show (match skipWs ('"' :: r) with
        | [] => none
        | c :: r => _) = _
  rw [skipWs_cons_not_ws '"' r (by decide)]
  show (if ('"' : Char) = '"' then _ else none) = _
  exact if_pos rfl

theorem renderFields_cons_shape (k : List Char) (v : Json) (fs : JFields) :
    ∃ t, renderFields (JFields.fcons k v fs) = '"' :: t := by
  cases fs with
  | fnil => exact ⟨_, rfl⟩
  | fcons k' v' fs' => exact ⟨_, rfl⟩

/-- The parser inverts the renderer: with enough fuel, a rendered clean
value followed by a suitable continuation parses back to itself, and a
rendered nonempty field list followed by a closing brace parses back to
itself. -/
theorem parse_render_master : ∀ fuel : Nat,
    (∀ (v : Json) (rest : List Char), cleanJson v = true → jdepth v ≤ fuel →
      numNextOk v rest = true →
      parseVal fuel (render v ++ rest) = some (v, rest)) ∧
    (∀ (fs : JFields) (rest : List Char), fs ≠ JFields.fnil →
      cleanFields fs = true → fieldsDepth fs ≤ fuel →
      parseFields fuel (renderFields fs ++ '}' :: rest) = some (fs, rest)) := by
  intro fuel
  induction fuel with
  | zero =>
    constructor
    · intro v rest _ hd _
      have := jdepth_pos v
      omega
    · intro fs rest hne _ hd
      cases fs with
      | fnil => exact absurd rfl hne
      | fcons k v fs' =>
        have hfd : fieldsDepth (JFields.fcons k v fs') =
            1 + max (jdepth v) (fieldsDepth fs') := rfl
        omega
  | succ fuel ih =>
    obtain ⟨ihv, ihf⟩ := ih
    constructor
    · intro v rest hclean hd hnext
      cases v with
      | jnull => rfl
      | jbool b => cases b <;> rfl
      | jstr s =>
        have hcleans : cleanStr s = true := by simpa [cleanJson] using hclean
        rw [show render (Json.jstr s) ++ rest = '"' :: (s ++ '"' :: rest) from by
          simp [render]]
        rw [parseVal_succ_cons fuel '"' _ (by decide)]
        rw [if_pos rfl, parseStrGo_render s rest hcleans]
        rfl
      | jnum neg m e =>
        have hstops : stopsNum rest = true := by simpa [numNextOk] using hnext
        cases neg with
        | true =>
          rw [show render (Json.jnum true m e) ++ rest =
              '-' :: (renderNum m e ++ rest) from by simp [render]]
          rw [parseVal_succ_cons fuel '-' _ (by decide)]
          rw [if_neg (by decide), if_neg (by decide), if_pos rfl]
          rw [parseNumCore_renderNum m e rest hstops]
          rfl
        | false =>
          obtain ⟨d, tail, hrn, hdd⟩ := renderNum_head m e
          obtain ⟨hne1, hne2, hne3⟩ := digit_head_facts d hdd
          rw [show render (Json.jnum false m e) ++ rest = d :: (tail ++ rest) from by
            simp [render, hrn]]
          rw [parseVal_succ_cons fuel d _ (not_ws_of_digit d hdd)]
          rw [if_neg (by simp [hne1]), if_neg (by simp [hne2]),
            if_neg (by simp [hne3]), if_pos hdd]
          rw [show d :: (tail ++ rest) = renderNum m e ++ rest from by rw [hrn]; rfl]
          rw [parseNumCore_renderNum m e rest hstops]
          rfl
      | jobj fs =>
        have hcleanf : cleanFields fs = true := by simpa [cleanJson] using hclean
        cases fs with
        | fnil =>
          rw [show render (Json.jobj JFields.fnil) ++ rest = '{' :: ('}' :: rest) from by
            simp [render, renderFields]]
          rw [parseVal_succ_cons fuel '{' _ (by decide)]
          rw [if_neg (by decide), if_pos rfl]
          rw [skipWs_cons_not_ws '}' rest (by decide)]
          simp
        | fcons k v fs' =>
          have hdf : fieldsDepth (JFields.fcons k v fs') ≤ fuel := by
            have h1 : jdepth (Json.jobj (JFields.fcons k v fs')) =
                1 + fieldsDepth (JFields.fcons k v fs') := rfl
            omega
          have hfields := ihf (JFields.fcons k v fs') rest
            (by intro hcon; exact JFields.noConfusion hcon) hcleanf hdf
          obtain ⟨t, ht⟩ := renderFields_cons_shape k v fs'
          rw [show render (Json.jobj (JFields.fcons k v fs')) ++ rest =
              '{' :: (renderFields (JFields.fcons k v fs') ++ '}' :: rest) from by
            simp [render]]
          rw [parseVal_succ_cons fuel '{' _ (by decide)]
          rw [if_neg (by decide), if_pos rfl]
          rw [ht, List.cons_append]
          rw [ht, List.cons_append] at hfields
          rw [skipWs_cons_not_ws '"' _ (by decide)]
          simp only []
          rw [hfields]
          simp
    · intro fs rest hne hcleanf hd
      cases fs with
      | fnil => exact absurd rfl hne
      | fcons k v fs' =>
        have hck : (cleanStr k = true ∧ cleanJson v = true) ∧ cleanFields fs' = true := by
          simpa only [cleanFields, Bool.and_eq_true] using hcleanf
        obtain ⟨⟨hk, hv⟩, hf'⟩ := hck
        have hfd : fieldsDepth (JFields.fcons k v fs') =
            1 + max (jdepth v) (fieldsDepth fs') := rfl
        have hdv : jdepth v ≤ fuel := by omega
        have hdf' : fieldsDepth fs' ≤ fuel := by omega
        cases fs' with
        | fnil =>
          rw [show renderFields (JFields.fcons k v JFields.fnil) ++ '}' :: rest =
              '"' :: (k ++ '"' :: (':' :: (render v ++ '}' :: rest))) from by
            simp [renderFields]]
          rw [parseFields_succ_quote]
          rw [parseStrGo_render k _ hk]
          simp only []
          rw [skipWs_cons_not_ws ':' _ (by decide)]
          simp only [if_true]
          rw [ihv v ('}' :: rest) hv hdv (numNextOk_cons v '}' rest (by decide) (by decide))]
          simp only []
          rw [skipWs_cons_not_ws '}' rest (by decide)]
          simp
        | fcons k' v' fs'' =>
          rw [show renderFields (JFields.fcons k v (JFields.fcons k' v' fs'')) ++ '}' :: rest =
              '"' :: (k ++ '"' :: (':' :: (render v ++
                ',' :: (renderFields (JFields.fcons k' v' fs'') ++ '}' :: rest)))) from by
            simp [renderFields]]
          rw [parseFields_succ_quote]
          rw [parseStrGo_render k _ hk]
          simp only []
          rw [skipWs_cons_not_ws ':' _ (by decide)]
          simp only [if_true]
          rw [ihv v (',' :: (renderFields (JFields.fcons k' v' fs'') ++ '}' :: rest)) hv hdv
            (numNextOk_cons v ',' _ (by decide) (by decide))]
          simp only []
          rw [skipWs_cons_not_ws ',' _ (by decide)]
          simp only [if_true]
          rw [ihf (JFields.fcons k' v' fs'') rest
            (by intro hcon; exact JFields.noConfusion hcon) hf' hdf']
          simp

mutual

theorem jdepth_le_renderLen : ∀ v : Json, jdepth v ≤ (render v).length
  | .jnull => by decide
  | .jbool b => by cases b <;> decide
  | .jstr s => by simp [jdepth, render]
  | .jnum neg m e => by
    obtain ⟨d, t, hrn, _⟩ := renderNum_head m e
    cases neg <;> simp [jdepth, render, hrn]
  | .jobj fs => by
    have h := fieldsDepth_le_renderLen fs
    simp only [jdepth, render, List.length_cons, List.length_append]
    simp at h ⊢
    omega

theorem fieldsDepth_le_renderLen : ∀ fs : JFields, fieldsDepth fs ≤ (renderFields fs).length + 1
  | .fnil => by decide
  | .fcons k v .fnil => by
    have h := jdepth_le_renderLen v
    simp [fieldsDepth, renderFields]
    omega
  | .fcons k v (.fcons k' v' fs) => by
    have h1 := jdepth_le_renderLen v
    have h2 := fieldsDepth_le_renderLen (.fcons k' v' fs)
    simp [fieldsDepth, renderFields] at h2 ⊢
    omega

end

/-- `JSON.parse` inverts the rendering of a clean object. -/
theorem jsonParse_render (fs : JFields) (hc : cleanFields fs = true) :
    jsonParse (render (Json.jobj fs)) = some (Json.jobj fs) := by
  have hlen : jdepth (Json.jobj fs) ≤ (render (Json.jobj fs)).length + 1 :=
    le_trans (jdepth_le_renderLen _) (Nat.le_succ _)
  have h := (parse_render_master ((render (Json.jobj fs)).length + 1)).1 (Json.jobj fs) []
    (by simpa [cleanJson] using hc) hlen (numNextOk_nil _)
  rw [List.append_nil] at h
  unfold jsonParse
  rw [h]
  rfl

/-! ## Rendered output contains no backtick (so the fence-stripping
passes leave it untouched) -/

theorem not_tick_of_digit (c : Char) (h : c.isDigit = true) : c ≠ '`' := by
  intro hcon
  subst hcon
  exact absurd h (by decide)

theorem cleanStr_no_tick (s : List Char) (h : cleanStr s = true) :
    ∀ c ∈ s, c ≠ '`' := by
  intro c hc
  have h2 := h
  simp only [cleanStr, List.all_eq_true] at h2
  have h3 := h2 c hc
  simp only [cleanChar, Bool.and_eq_true, bne_iff_ne, ne_eq] at h3
  exact h3.2

theorem renderNum_no_tick (m e : Nat) : ∀ c ∈ renderNum m e, c ≠ '`' := by
  by_cases he : e = 0
  · subst he
    intro c hc
    rw [show renderNum m 0 = natDigits m from by simp [renderNum]] at hc
    exact not_tick_of_digit c (natDigits_all_digits m c hc)
  · intro c hc
    have hq : renderNum m e =
        (List.replicate (e + 1 - (natDigits m).length) '0' ++ natDigits m).take
          ((List.replicate (e + 1 - (natDigits m).length) '0' ++ natDigits m).length - e) ++
        '.' :: (List.replicate (e + 1 - (natDigits m).length) '0' ++ natDigits m).drop
          ((List.replicate (e + 1 - (natDigits m).length) '0' ++ natDigits m).length - e) := by
      simp [renderNum, he]
    rw [hq] at hc
    have hpad : ∀ x ∈ List.replicate (e + 1 - (natDigits m).length) '0' ++ natDigits m,
        x ≠ '`' := by
      intro x hx
      rcases List.mem_append.mp hx with hx2 | hx2
      · rw [List.eq_of_mem_replicate hx2]; decide
      · exact not_tick_of_digit x (natDigits_all_digits m x hx2)
    rcases List.mem_append.mp hc with hc2 | hc2
    · exact hpad c (List.take_subset _ _ hc2)
    · rcases List.mem_cons.mp hc2 with rfl | hc3
      · decide
      · exact hpad c (List.drop_subset _ _ hc3)

mutual

theorem render_no_tick : ∀ (v : Json), cleanJson v = true → ∀ c ∈ render v, c ≠ '`'
  | .jnull, _ => by
    intro c hc
    simp [render] at hc
    rcases hc with rfl | rfl | rfl | rfl <;> decide
  | .jbool true, _ => by
    intro c hc
    simp [render] at hc
    rcases hc with rfl | rfl | rfl | rfl <;> decide
  | .jbool false, _ => by
    intro c hc
    simp [render] at hc
    rcases hc with rfl | rfl | rfl | rfl | rfl <;> decide
  | .jstr s, h => by
    intro c hc
    have hs : cleanStr s = true := by simpa [cleanJson] using h
    rw [show render (Json.jstr s) = '"' :: (s ++ ['"']) from rfl] at hc
    rcases List.mem_cons.mp hc with rfl | hc2
    · decide
    rcases List.mem_append.mp hc2 with hc3 | hc3
    · exact cleanStr_no_tick s hs c hc3
    · rw [List.mem_singleton.mp hc3]; decide
  | .jnum false m e, _ => by
    intro c hc
    rw [show render (Json.jnum false m e) = renderNum m e from by simp [render]] at hc
    exact renderNum_no_tick m e c hc
  | .jnum true m e, _ => by
    intro c hc
    rw [show render (Json.jnum true m e) = '-' :: renderNum m e from by simp [render]] at hc
    rcases List.mem_cons.mp hc with rfl | hc2
    · decide
    · exact renderNum_no_tick m e c hc2
  | .jobj fs, h => by
    intro c hc
    have hf : cleanFields fs = true := by simpa [cleanJson] using h
    rw [show render (Json.jobj fs) = '{' :: (renderFields fs ++ ['}']) from rfl] at hc
    rcases List.mem_cons.mp hc with rfl | hc2
    · decide
    rcases List.mem_append.mp hc2 with hc3 | hc3
    · exact renderFields_no_tick fs hf c hc3
    · rw [List.mem_singleton.mp hc3]; decide

theorem renderFields_no_tick :
    ∀ (fs : JFields), cleanFields fs = true → ∀ c ∈ renderFields fs, c ≠ '`'
  | .fnil, _ => by
    intro c hc
    simp [renderFields] at hc
  | .fcons k v .fnil, h => by
    have hck : (cleanStr k = true ∧ cleanJson v = true) ∧
        cleanFields JFields.fnil = true := by
      simpa only [cleanFields, Bool.and_eq_true] using h
    obtain ⟨⟨hk, hv⟩, -⟩ := hck
    intro c hc
    rw [show renderFields (JFields.fcons k v JFields.fnil) =
        '"' :: (k ++ '"' :: ':' :: render v) from rfl] at hc
    rcases List.mem_cons.mp hc with rfl | hc2
    · decide
    rcases List.mem_append.mp hc2 with hc3 | hc3
    · exact cleanStr_no_tick k hk c hc3
    rcases List.mem_cons.mp hc3 with rfl | hc4
    · decide
    rcases List.mem_cons.mp hc4 with rfl | hc5
    · decide
    · exact render_no_tick v hv c hc5
  | .fcons k v (.fcons k' v' fs), h => by
    have hck : (cleanStr k = true ∧ cleanJson v = true) ∧
        cleanFields (JFields.fcons k' v' fs) = true := by
      simpa only [cleanFields, Bool.and_eq_true] using h
    obtain ⟨⟨hk, hv⟩, hrest⟩ := hck
    intro c hc
    rw [show renderFields (JFields.fcons k v (JFields.fcons k' v' fs)) =
        '"' :: (k ++ '"' :: ':' ::
          (render v ++ ',' :: renderFields (JFields.fcons k' v' fs))) from by
      simp [renderFields]] at hc
    rcases List.mem_cons.mp hc with rfl | hc2
    · decide
    rcases List.mem_append.mp hc2 with hc3 | hc3
    · exact cleanStr_no_tick k hk c hc3
    rcases List.mem_cons.mp hc3 with rfl | hc4
    · decide
    rcases List.mem_cons.mp hc4 with rfl | hc5
    · decide
    rcases List.mem_append.mp hc5 with hc6 | hc6
    · exact render_no_tick v hv c hc6
    rcases List.mem_cons.mp hc6 with rfl | hc7
    · decide
    · exact renderFields_no_tick (JFields.fcons k' v' fs) hrest c hc7

end

/-! ## Behaviour of the two fence-stripping passes on fenced input -/

theorem fenceJsonAfter_not_tick (c : Char) (cs : List Char) (h : c ≠ '`') :
    fenceJsonAfter (c :: cs) = none := by
  rcases cs with _ | ⟨c1, _ | ⟨c2, _ | ⟨c3, _ | ⟨c4, _ | ⟨c5, _ | ⟨c6, rest⟩⟩⟩⟩⟩⟩ <;>
    first
    | rfl
    | simp [fenceJsonAfter, h]

theorem fenceJsonAfter_close3 (xs : List Char) :
    fenceJsonAfter ('`' :: '`' :: '`' :: '\n' :: xs) = none := by
  rcases xs with _ | ⟨a, _ | ⟨b, _ | ⟨c, rest⟩⟩⟩ <;> rfl

theorem fenceJsonAfter_close2 (xs : List Char) :
    fenceJsonAfter ('`' :: '`' :: '\n' :: xs) = none := by
  rcases xs with _ | ⟨a, _ | ⟨b, _ | ⟨c, _ | ⟨d, rest⟩⟩⟩⟩ <;> rfl

theorem fenceJsonAfter_close1 (xs : List Char) :
    fenceJsonAfter ('`' :: '\n' :: xs) = none := by
  rcases xs with _ | ⟨a, _ | ⟨b, _ | ⟨c, _ | ⟨d, _ | ⟨e, rest⟩⟩⟩⟩⟩ <;> rfl

theorem fenceJsonAfter_open (c : Char) (cs : List Char) (h : isWsChar c = false) :
    fenceJsonAfter ('`' :: '`' :: '`' :: 'j' :: 's' :: 'o' :: 'n' :: '\n' :: c :: cs) =
      some (c :: cs) := by
  simp [fenceJsonAfter, List.dropWhile_cons, h]
  decide

theorem fenceJsonAfter_length : ∀ (cs r : List Char),
    fenceJsonAfter cs = some r → r.length + 7 ≤ cs.length := by
  intro cs r h
  rcases cs with _ | ⟨c0, _ | ⟨c1, _ | ⟨c2, _ | ⟨c3, _ | ⟨c4, _ | ⟨c5, _ | ⟨c6, rest⟩⟩⟩⟩⟩⟩⟩
  · exact Option.noConfusion h
  · exact Option.noConfusion h
  · exact Option.noConfusion h
  · exact Option.noConfusion h
  · exact Option.noConfusion h
  · exact Option.noConfusion h
  · exact Option.noConfusion h
  · rw [show fenceJsonAfter (c0 :: c1 :: c2 :: c3 :: c4 :: c5 :: c6 :: rest) =
        (if c0 = '`' ∧ c1 = '`' ∧ c2 = '`' ∧ lowerChar c3 = 'j' ∧
            lowerChar c4 = 's' ∧ lowerChar c5 = 'o' ∧ lowerChar c6 = 'n' then
          some (rest.dropWhile isWsChar)
        else none) from rfl] at h
    split at h
    · injection h with h2
      subst h2
      have hd : (rest.dropWhile isWsChar).length ≤ rest.length :=
        (List.dropWhile_sublist isWsChar).length_le
      simp only [List.length_cons]
      omega
    · exact Option.noConfusion h

theorem pass1Go_step_none (fuel : Nat) (c : Char) (cs : List Char)
    (h : fenceJsonAfter (c :: cs) = none) :
    pass1Go (fuel + 1) (c :: cs) = c :: pass1Go fuel cs := by
  show (match fenceJsonAfter (c :: cs) with
        | some rest => pass1Go fuel rest
        | none => c :: pass1Go fuel cs) = _
  rw [h]

theorem pass1Go_step_some (fuel : Nat) (c : Char) (cs rest : List Char)
    (h : fenceJsonAfter (c :: cs) = some rest) :
    pass1Go (fuel + 1) (c :: cs) = pass1Go fuel rest := by
  show (match fenceJsonAfter (c :: cs) with
        | some rest => pass1Go fuel rest
        | none => c :: pass1Go fuel cs) = _
  rw [h]

theorem pass1Go_fuel_irrel : ∀ (n fuel fuel' : Nat) (cs : List Char),
    cs.length ≤ n → cs.length ≤ fuel → cs.length ≤ fuel' →
    pass1Go fuel cs = pass1Go fuel' cs := by
  intro n
  induction n with
  | zero =>
    intro fuel fuel' cs h0 _ _
    have hnil : cs = [] := by
      cases cs with
      | nil => rfl
      | cons a b => simp at h0
    subst hnil
    cases fuel <;> cases fuel' <;> rfl
  | succ n ih =>
    intro fuel fuel' cs h0 h1 h2
    cases cs with
    | nil => cases fuel <;> cases fuel' <;> rfl
    | cons c cs' =>
      simp only [List.length_cons] at h0 h1 h2
      cases fuel with
      | zero => omega
      | succ f =>
        cases fuel' with
        | zero => omega
        | succ f' =>
          cases hm : fenceJsonAfter (c :: cs') with
          | some rest =>
            rw [pass1Go_step_some f c cs' rest hm, pass1Go_step_some f' c cs' rest hm]
            have hlen := fenceJsonAfter_length (c :: cs') rest hm
            simp only [List.length_cons] at hlen
            exact ih f f' rest (by omega) (by omega) (by omega)
          | none =>
            rw [pass1Go_step_none f c cs' hm, pass1Go_step_none f' c cs' hm]
            congr 1
            exact ih f f' cs' (by omega) (by omega) (by omega)

theorem pass1Go_no_tick : ∀ (cs : List Char) (fuel : Nat),
    cs.length ≤ fuel → (∀ c ∈ cs, c ≠ '`') → pass1Go fuel cs = cs := by
  intro cs
  induction cs with
  | nil => intro fuel _ _; cases fuel <;> rfl
  | cons c cs' ih =>
    intro fuel hlen hcl
    cases fuel with
    | zero => simp at hlen
    | succ f =>
      rw [pass1Go_step_none f c cs'
        (fenceJsonAfter_not_tick c cs' (hcl c (List.mem_cons_self c cs')))]
      congr 1
      exact ih f (by simp only [List.length_cons] at hlen; omega)
        (fun x hx => hcl x (List.mem_cons_of_mem c hx))

theorem pass1Go_append_clean : ∀ (a : List Char) (fuel : Nat) (cs : List Char),
    (∀ c ∈ a, c ≠ '`') → pass1Go (a.length + fuel) (a ++ cs) = a ++ pass1Go fuel cs := by
  intro a
  induction a with
  | nil => intro fuel cs _; simp
  | cons c a' ih =>
    intro fuel cs hcl
    rw [show (c :: a').length + fuel = (a'.length + fuel) + 1 from by
      simp only [List.length_cons]; omega]
    rw [List.cons_append]
    rw [pass1Go_step_none (a'.length + fuel) c (a' ++ cs)
      (fenceJsonAfter_not_tick c _ (hcl c (List.mem_cons_self c a')))]
    rw [ih fuel cs (fun x hx => hcl x (List.mem_cons_of_mem c hx))]
    rfl

theorem pass1_fenceClose (B : List Char) (hB : ∀ x ∈ B, x ≠ '`') :
    pass1Go (B.length + 5) ('\n' :: '`' :: '`' :: '`' :: '\n' :: B) =
      '\n' :: '`' :: '`' :: '`' :: '\n' :: B := by
  have h5 : pass1Go (B.length + 5) ('\n' :: '`' :: '`' :: '`' :: '\n' :: B)
      = '\n' :: pass1Go (B.length + 4) ('`' :: '`' :: '`' :: '\n' :: B) :=
    pass1Go_step_none (B.length + 4) '\n' _ (fenceJsonAfter_not_tick '\n' _ (by decide))
  have h4 : pass1Go (B.length + 4) ('`' :: '`' :: '`' :: '\n' :: B)
      = '`' :: pass1Go (B.length + 3) ('`' :: '`' :: '\n' :: B) :=
    pass1Go_step_none (B.length + 3) '`' _ (fenceJsonAfter_close3 B)
  have h3 : pass1Go (B.length + 3) ('`' :: '`' :: '\n' :: B)
      = '`' :: pass1Go (B.length + 2) ('`' :: '\n' :: B) :=
    pass1Go_step_none (B.length + 2) '`' _ (fenceJsonAfter_close2 B)
  have h2 : pass1Go (B.length + 2) ('`' :: '\n' :: B)
      = '`' :: pass1Go (B.length + 1) ('\n' :: B) :=
    pass1Go_step_none (B.length + 1) '`' _ (fenceJsonAfter_close1 B)
  have h1 : pass1Go (B.length + 1) ('\n' :: B) = '\n' :: pass1Go B.length B :=
    pass1Go_step_none B.length '\n' _ (fenceJsonAfter_not_tick '\n' _ (by decide))
  rw [h5, h4, h3, h2, h1, pass1Go_no_tick B B.length le_rfl hB]

theorem pass1_wrapped (A Y B : List Char) (c : Char)
    (hA : ∀ x ∈ A, x ≠ '`') (hc : isWsChar c = false)
    (hY : ∀ x ∈ c :: Y, x ≠ '`') (hB : ∀ x ∈ B, x ≠ '`') :
    pass1 (A ++ ('`' :: '`' :: '`' :: 'j' :: 's' :: 'o' :: 'n' :: '\n' ::
        ((c :: Y) ++ ('\n' :: '`' :: '`' :: '`' :: '\n' :: B))))
      = A ++ ((c :: Y) ++ ('\n' :: '`' :: '`' :: '`' :: '\n' :: B)) := by
  set T : List Char := '\n' :: '`' :: '`' :: '`' :: '\n' :: B with hT
  set R : List Char :=
    '`' :: '`' :: '`' :: 'j' :: 's' :: 'o' :: 'n' :: '\n' :: ((c :: Y) ++ T) with hR
  show pass1Go (A ++ R).length (A ++ R) = A ++ ((c :: Y) ++ T)
  rw [show (A ++ R).length = A.length + R.length from by simp]
  rw [pass1Go_append_clean A R.length R hA]
  have hstep : pass1Go R.length R =
      pass1Go (((c :: Y) ++ T).length + 7) (c :: (Y ++ T)) :=
    pass1Go_step_some (((c :: Y) ++ T).length + 7) '`'
      ('`' :: '`' :: 'j' :: 's' :: 'o' :: 'n' :: '\n' :: ((c :: Y) ++ T))
      (c :: (Y ++ T)) (fenceJsonAfter_open c (Y ++ T) hc)
  have hszT : ((c :: Y) ++ T).length = (c :: Y).length + T.length := by
    simp only [List.length_cons, List.length_append]
  have hirr : pass1Go (((c :: Y) ++ T).length + 7) (c :: (Y ++ T)) =
      pass1Go ((c :: Y).length + T.length) (c :: (Y ++ T)) := by
    have hsame : (c :: (Y ++ T)).length = ((c :: Y) ++ T).length := by
      simp only [List.length_cons, List.length_append]
      omega
    exact pass1Go_fuel_irrel (((c :: Y) ++ T).length + 7) _ _ (c :: (Y ++ T))
      (by omega) (by omega) (by omega)
  have happ : pass1Go ((c :: Y).length + T.length) ((c :: Y) ++ T) =
      (c :: Y) ++ pass1Go T.length T :=
    pass1Go_append_clean (c :: Y) T.length T hY
  have hclose : pass1Go T.length T = T := pass1_fenceClose B hB
  rw [hstep, hirr]
  rw [show (c :: (Y ++ T)) = (c :: Y) ++ T from rfl]
  rw [happ, hclose]

theorem fence3After_not_tick (c : Char) (cs : List Char) (h : c ≠ '`') :
    fence3After (c :: cs) = none := by
  rcases cs with _ | ⟨c1, _ | ⟨c2, rest⟩⟩ <;>
    first
    | rfl
    | simp [fence3After, h]

theorem fence3After_open (xs : List Char) :
    fence3After ('`' :: '`' :: '`' :: xs) = some (xs.dropWhile isWsChar) := by
  simp [fence3After]

theorem fence3After_length : ∀ (cs r : List Char),
    fence3After cs = some r → r.length + 3 ≤ cs.length := by
  intro cs r h
  rcases cs with _ | ⟨c0, _ | ⟨c1, _ | ⟨c2, rest⟩⟩⟩
  · exact Option.noConfusion h
  · exact Option.noConfusion h
  · exact Option.noConfusion h
  · rw [show fence3After (c0 :: c1 :: c2 :: rest) =
        (if c0 = '`' ∧ c1 = '`' ∧ c2 = '`' then some (rest.dropWhile isWsChar)
        else none) from rfl] at h
    split at h
    · injection h with h2
      subst h2
      have hd : (rest.dropWhile isWsChar).length ≤ rest.length :=
        (List.dropWhile_sublist isWsChar).length_le
      simp only [List.length_cons]
      omega
    · exact Option.noConfusion h

theorem pass2Go_step_none (fuel : Nat) (c : Char) (cs : List Char)
    (h : fence3After (c :: cs) = none) :
    pass2Go (fuel + 1) (c :: cs) = c :: pass2Go fuel cs := by
  show (match fence3After (c :: cs) with
        | some rest => pass2Go fuel rest
        | none => c :: pass2Go fuel cs) = _
  rw [h]

theorem pass2Go_step_some (fuel : Nat) (c : Char) (cs rest : List Char)
    (h : fence3After (c :: cs) = some rest) :
    pass2Go (fuel + 1) (c :: cs) = pass2Go fuel rest := by
  show (match fence3After (c :: cs) with
        | some rest => pass2Go fuel rest
        | none => c :: pass2Go fuel cs) = _
  rw [h]

theorem pass2Go_no_tick : ∀ (cs : List Char) (fuel : Nat),
    cs.length ≤ fuel → (∀ c ∈ cs, c ≠ '`') → pass2Go fuel cs = cs := by
  intro cs
  induction cs with
  | nil => intro fuel _ _; cases fuel <;> rfl
  | cons c cs' ih =>
    intro fuel hlen hcl
    cases fuel with
    | zero => simp at hlen
    | succ f =>
      rw [pass2Go_step_none f c cs'
        (fence3After_not_tick c cs' (hcl c (List.mem_cons_self c cs')))]
      congr 1
      exact ih f (by simp only [List.length_cons] at hlen; omega)
        (fun x hx => hcl x (List.mem_cons_of_mem c hx))

theorem pass2Go_append_clean : ∀ (a : List Char) (fuel : Nat) (cs : List Char),
    (∀ c ∈ a, c ≠ '`') → pass2Go (a.length + fuel) (a ++ cs) = a ++ pass2Go fuel cs := by
  intro a
  induction a with
  | nil => intro fuel cs _; simp
  | cons c a' ih =>
    intro fuel cs hcl
    rw [show (c :: a').length + fuel = (a'.length + fuel) + 1 from by
      simp only [List.length_cons]; omega]
    rw [List.cons_append]
    rw [pass2Go_step_none (a'.length + fuel) c (a' ++ cs)
      (fence3After_not_tick c _ (hcl c (List.mem_cons_self c a')))]
    rw [ih fuel cs (fun x hx => hcl x (List.mem_cons_of_mem c hx))]
    rfl

theorem pass2_wrapped (A B : List Char)
    (hA : ∀ x ∈ A, x ≠ '`') (hB : ∀ x ∈ B, x ≠ '`') :
    pass2 (A ++ ('\n' :: '`' :: '`' :: '`' :: '\n' :: B)) =
      A ++ '\n' :: B.dropWhile isWsChar := by
  set T : List Char := '\n' :: '`' :: '`' :: '`' :: '\n' :: B with hT
  show pass2Go (A ++ T).length (A ++ T) = A ++ '\n' :: B.dropWhile isWsChar
  rw [show (A ++ T).length = A.length + T.length from by simp]
  rw [pass2Go_append_clean A T.length T hA]
  have h5 : pass2Go T.length T =
      '\n' :: pass2Go (B.length + 4) ('`' :: '`' :: '`' :: '\n' :: B) :=
    pass2Go_step_none (B.length + 4) '\n' _ (fence3After_not_tick '\n' _ (by decide))
  have hdw : ('\n' :: B).dropWhile isWsChar = B.dropWhile isWsChar := by
    simp [List.dropWhile_cons, isWsChar]
  have h4 : pass2Go (B.length + 4) ('`' :: '`' :: '`' :: '\n' :: B) =
      pass2Go (B.length + 3) (B.dropWhile isWsChar) := by
    have := pass2Go_step_some (B.length + 3) '`' ('`' :: '`' :: '\n' :: B)
      (('\n' :: B).dropWhile isWsChar) (fence3After_open ('\n' :: B))
    rw [hdw] at this
    exact this
  have hfin : pass2Go (B.length + 3) (B.dropWhile isWsChar) = B.dropWhile isWsChar := by
    apply pass2Go_no_tick
    · have hle : (B.dropWhile isWsChar).length ≤ B.length :=
        (List.dropWhile_sublist isWsChar).length_le
      omega
    · intro x hx
      exact hB x ((List.dropWhile_sublist isWsChar).subset hx)
  rw [h5, h4, hfin]

/-! ## Trimming and the greedy brace span -/

theorem trimChars_shape (A mid B : List Char) :
    trimChars (A ++ '{' :: (mid ++ '}' :: B)) =
      A.dropWhile isWsChar ++
        '{' :: (mid ++ '}' :: (B.reverse.dropWhile isWsChar).reverse) := by
  unfold trimChars
  rw [dropWhile_append_stop A '{' _ (by decide)]
  have h2 : (A.dropWhile isWsChar ++ '{' :: (mid ++ '}' :: B)).reverse =
      B.reverse ++ '}' :: (mid.reverse ++ '{' :: (A.dropWhile isWsChar).reverse) := by
    simp
  rw [h2]
  rw [dropWhile_append_stop B.reverse '}' _ (by decide)]
  simp

theorem jsonSpan_extract (A mid B : List Char)
    (hA : '{' ∉ A) (hB : '}' ∉ B) :
    jsonSpan (A ++ '{' :: (mid ++ '}' :: B)) = some ('{' :: (mid ++ ['}'])) := by
  have hAall : ∀ x ∈ A, (x != '{') = true := by
    intro x hx
    simp only [bne_iff_ne, ne_eq]
    intro h
    subst h
    exact hA hx
  have hBall : ∀ x ∈ B.reverse, (x != '}') = true := by
    intro x hx
    simp only [bne_iff_ne, ne_eq]
    intro h
    subst h
    exact hB (List.mem_reverse.mp hx)
  have h1 : (A ++ '{' :: (mid ++ '}' :: B)).dropWhile (fun c => c != '{') =
      '{' :: (mid ++ '}' :: B) := by
    rw [dropWhile_append_all A _ hAall, dropWhile_cons_false '{' _ (by simp)]
  have hrev : ('{' :: (mid ++ '}' :: B)).reverse =
      B.reverse ++ '}' :: (mid.reverse ++ ['{']) := by
    simp
  have h2 : (('{' :: (mid ++ '}' :: B)).reverse).dropWhile (fun c => c != '}') =
      '}' :: (mid.reverse ++ ['{']) := by
    rw [hrev, dropWhile_append_all B.reverse _ hBall,
      dropWhile_cons_false '}' _ (by simp)]
  have h3 : ('}' :: (mid.reverse ++ ['{'])).reverse = '{' :: (mid ++ ['}']) := by
    simp
  simp only [jsonSpan]
  rw [h1, h2, h3]
  rfl

set_option maxRecDepth 20000 in
/-- C5 counterexample: the unamended round-trip claim fails for arbitrary
surrounding prose. When the prose after the fenced payload contains a
closing brace, the greedy first-brace-to-last-brace span overshoots the
payload and the decode fails, so `parseJSONResponse` throws instead of
recovering the payload. -/
theorem parseJSONResponse_prose_counterexample :
    parseJSONResponseCore ("Here is the result: ".data ++ fenceOpen ++
        render (Json.jobj demoFs) ++ fenceClose ++ ("Enjoy".data ++ ['}'])) =
      Except.error "Failed to parse LLM response: JSON syntax error" := by
  rfl

/-- C5 (amended): `parseJSONResponse` extracts the greedy span from the
first opening to the last closing brace; it fails with a parse error when
no such span exists or when the span does not decode, never substituting a
default; and a clean score payload rendered to text, wrapped in the
markdown fence and surrounded by prose, parses back to an equivalent
structure provided the leading prose contains no opening brace or
backtick and the trailing prose contains no closing brace or backtick
(without the brace restriction the greedy span overshoots, see the
counterexample). -/
theorem parseJSONResponse_spec :
    (∀ (A mid B : List Char), '{' ∉ A → '}' ∉ B →
      jsonSpan (A ++ '{' :: (mid ++ '}' :: B)) = some ('{' :: (mid ++ ['}']))) ∧
    (∀ content : List Char,
      jsonSpan (trimChars (pass2 (pass1 content))) = none →
      parseJSONResponseCore content =
        Except.error "Failed to parse LLM response: No JSON found in response") ∧
    (∀ (content sp : List Char),
      jsonSpan (trimChars (pass2 (pass1 content))) = some sp →
      jsonParse sp = none →
      parseJSONResponseCore content =
        Except.error "Failed to parse LLM response: JSON syntax error") ∧
    (∀ (prose1 prose2 : List Char) (fs : JFields),
      cleanFields fs = true →
      (∀ c ∈ prose1, c ≠ '{' ∧ c ≠ '`') →
      (∀ c ∈ prose2, c ≠ '}' ∧ c ≠ '`') →
      parseJSONResponseCore
          (prose1 ++ fenceOpen ++ render (Json.jobj fs) ++ fenceClose ++ prose2) =
        Except.ok (Json.jobj fs)) := by
  refine ⟨jsonSpan_extract, ?_, ?_, ?_⟩
  · intro content h
    simp only [parseJSONResponseCore]
    rw [h]
  · intro content sp h1 h2
    simp only [parseJSONResponseCore]
    rw [h1]
    simp only []
    rw [h2]
  · intro prose1 prose2 fs hfs hp1 hp2
    have hp1t : ∀ x ∈ prose1, x ≠ '`' := fun x hx => (hp1 x hx).2
    have hp2t : ∀ x ∈ prose2, x ≠ '`' := fun x hx => (hp2 x hx).2
    have hbodyt : ∀ x ∈ '{' :: (renderFields fs ++ ['}']), x ≠ '`' := by
      have hnt := render_no_tick (Json.jobj fs) (by simpa [cleanJson] using hfs)
      intro x hx
      exact hnt x hx
    have hshape : prose1 ++ fenceOpen ++ render (Json.jobj fs) ++ fenceClose ++ prose2 =
        prose1 ++ ('`' :: '`' :: '`' :: 'j' :: 's' :: 'o' :: 'n' :: '\n' ::
          (('{' :: (renderFields fs ++ ['}'])) ++
            ('\n' :: '`' :: '`' :: '`' :: '\n' :: prose2))) := by
      rw [show fenceOpen = '`' :: '`' :: '`' :: 'j' :: 's' :: 'o' :: 'n' :: '\n' :: [] from rfl,
        show fenceClose = '\n' :: '`' :: '`' :: '`' :: '\n' :: [] from rfl,
        show render (Json.jobj fs) = '{' :: (renderFields fs ++ ['}']) from rfl]
      simp
    have hpass1 := pass1_wrapped prose1 (renderFields fs ++ ['}']) prose2 '{'
      hp1t (by decide) hbodyt hp2t
    have hAt : ∀ x ∈ prose1 ++ ('{' :: (renderFields fs ++ ['}'])), x ≠ '`' := by
      intro x hx
      rcases List.mem_append.mp hx with h | h
      · exact hp1t x h
      · exact hbodyt x h
    have hpass2 := pass2_wrapped (prose1 ++ ('{' :: (renderFields fs ++ ['}']))) prose2
      hAt hp2t
    have hclean : trimChars (pass2 (pass1
        (prose1 ++ fenceOpen ++ render (Json.jobj fs) ++ fenceClose ++ prose2))) =
        prose1.dropWhile isWsChar ++ '{' :: (renderFields fs ++ '}' ::
          ((('\n' :: prose2.dropWhile isWsChar).reverse.dropWhile isWsChar).reverse)) := by
      rw [hshape, hpass1]
      rw [show prose1 ++ (('{' :: (renderFields fs ++ ['}'])) ++
          ('\n' :: '`' :: '`' :: '`' :: '\n' :: prose2)) =
          (prose1 ++ ('{' :: (renderFields fs ++ ['}']))) ++
            ('\n' :: '`' :: '`' :: '`' :: '\n' :: prose2) from by simp]
      rw [hpass2]
      rw [show (prose1 ++ ('{' :: (renderFields fs ++ ['}']))) ++
          '\n' :: prose2.dropWhile isWsChar =
          prose1 ++ '{' :: (renderFields fs ++ '}' ::
            ('\n' :: prose2.dropWhile isWsChar)) from by simp]
      rw [trimChars_shape prose1 (renderFields fs) ('\n' :: prose2.dropWhile isWsChar)]
    have hA' : '{' ∉ prose1.dropWhile isWsChar := by
      intro hx
      exact (hp1 '{' ((List.dropWhile_sublist isWsChar).subset hx)).1 rfl
    have hB' : '}' ∉
        (('\n' :: prose2.dropWhile isWsChar).reverse.dropWhile isWsChar).reverse := by
      intro hx
      have hx2 := List.mem_reverse.mp hx
      have hx3 := (List.dropWhile_sublist isWsChar).subset hx2
      have hx4 := List.mem_reverse.mp hx3
      rcases List.mem_cons.mp hx4 with h | h
      · exact absurd h (by decide)
      · exact (hp2 '}' ((List.dropWhile_sublist isWsChar).subset h)).1 rfl
    have hspan := jsonSpan_extract (prose1.dropWhile isWsChar) (renderFields fs)
      ((('\n' :: prose2.dropWhile isWsChar).reverse.dropWhile isWsChar).reverse) hA' hB'
    simp only [parseJSONResponseCore]
    rw [hclean, hspan]
    simp only []
    rw [show ('{' :: (renderFields fs ++ ['}'])) = render (Json.jobj fs) from rfl]
    rw [jsonParse_render fs hfs]

/-- Witness for the C5 theorem at a concrete payload and concrete
surrounding prose. -/
theorem parseJSONResponse_spec_witness :
    parseJSONResponseCore ("Sure thing! ".data ++ fenceOpen ++
        render (Json.jobj demoFs) ++ fenceClose ++
        "Let me know if you need anything else.".data) =
      Except.ok (Json.jobj demoFs) :=
  parseJSONResponse_spec.2.2.2 "Sure thing! ".data
    "Let me know if you need anything else.".data demoFs
    (by decide) (by decide) (by decide)

end CvAnalyzer
